import Mathlib

/-!
Verification development for the tcg-python chinese-postman engine.

The Python sources embedded here:
  * `src/core/shortest_paths.py`      — class `ShortestPaths` (Floyd–Warshall
    over unit-weight edges, with predecessor-based path reconstruction);
  * `src/core/duplications_finder.py` — class `DuplicationsFinder` (degree
    surplus, deficit/surplus copy multisets, bipartite matching);
  * `src/core/chinese_postman_path.py`— class `ChinesePostmanPath`
    (duplication, synthetic-edge removal, depth-first edge-disjoint tour).

Graphs are networkx `MultiDiGraph`s; we embed them as a list of nodes in
insertion order plus a list of `(src, dst, key)` edge triples in insertion
order.  Python dict iteration order is modelled by insertion order
throughout; where a theorem would be sensitive to that choice this is noted
at the theorem.
-/

namespace TCG

/-- Decidable equality on `Except` results (Python exceptions versus
returned values), used to evaluate the model at concrete inputs. -/
instance {ε σ : Type} [DecidableEq ε] [DecidableEq σ] :
    DecidableEq (Except ε σ) := fun a b =>
  match a, b with
  | .error x, .error y =>
    if h : x = y then .isTrue (by rw [h]) else
      .isFalse (fun hc => h (by cases hc; rfl))
  | .error _, .ok _ => .isFalse (fun hc => by cases hc)
  | .ok _, .error _ => .isFalse (fun hc => by cases hc)
  | .ok x, .ok y =>
    if h : x = y then .isTrue (by rw [h]) else
      .isFalse (fun hc => h (by cases hc; rfl))

/-- A directed multigraph: nodes in insertion order, edges as
`(src, dst, key)` triples in insertion order.  Mirrors networkx
`MultiDiGraph` as used by the sources. -/
structure MultiDiGraph (α : Type) where
  nodes : List α
  edges : List (α × α × Nat)
  deriving DecidableEq, Repr

variable {α : Type} [DecidableEq α]

namespace MultiDiGraph

/-- networkx invariants our embedding relies on: the node list has no
duplicates and every edge endpoint is a node. -/
def WF (g : MultiDiGraph α) : Prop :=
  g.nodes.Nodup ∧ ∀ e ∈ g.edges, e.1 ∈ g.nodes ∧ e.2.1 ∈ g.nodes

instance (g : MultiDiGraph α) : Decidable g.WF :=
  decidable_of_iff
    (g.nodes.Nodup ∧ ∀ e ∈ g.edges, e.1 ∈ g.nodes ∧ e.2.1 ∈ g.nodes) Iff.rfl

/-- Model of `g.size()` in networkx: the number of edges. -/
def size (g : MultiDiGraph α) : Nat := g.edges.length

/-- Membership test `v in g` (node containment). -/
def hasNode (g : MultiDiGraph α) (v : α) : Prop := v ∈ g.nodes

instance (g : MultiDiGraph α) (v : α) : Decidable (g.hasNode v) :=
  inferInstanceAs (Decidable (v ∈ g.nodes))

/-- There is at least one edge from `u` to `v` (`v in g.successors(u)`). -/
def hasEdgeB (g : MultiDiGraph α) (u v : α) : Bool :=
  g.edges.any fun e => e.1 = u ∧ e.2.1 = v

/-- Model of `g.out_degree(node)`: number of edges leaving `node`. -/
def outDegree (g : MultiDiGraph α) (n : α) : Nat :=
  (g.edges.filter fun e => e.1 = n).length

/-- Model of `g.in_degree(node)`: number of edges entering `node`. -/
def inDegree (g : MultiDiGraph α) (n : α) : Nat :=
  (g.edges.filter fun e => e.2.1 = n).length

/-- Add a node if it is not already present (networkx adds endpoints of a
new edge automatically). -/
def addNode (g : MultiDiGraph α) (n : α) : MultiDiGraph α :=
  if n ∈ g.nodes then g else { g with nodes := g.nodes ++ [n] }

/-- Model of `g.add_edge(u, v, key=k)`: ensure both endpoints are nodes; if the exact
`(u, v, k)` edge already exists networkx only refreshes its data dict (no
new edge), otherwise a new parallel edge is inserted. -/
def addEdge (g : MultiDiGraph α) (u v : α) (k : Nat) : MultiDiGraph α :=
  let g' := (g.addNode u).addNode v
  if (u, v, k) ∈ g'.edges then g'
  else { g' with edges := g'.edges ++ [(u, v, k)] }

/-- Model of `g.out_edges(cur, keys=True)`: the edges leaving `cur`, in insertion
order (networkx yields them in adjacency order; any fixed order gives the
same covering/walk properties proved below). -/
def outEdges (g : MultiDiGraph α) (cur : α) : List (α × α × Nat) :=
  g.edges.filter fun e => e.1 = cur

/-- The list of edge keys of the graph. -/
def keysOf (g : MultiDiGraph α) : List Nat := g.edges.map fun e => e.2.2

end MultiDiGraph

open MultiDiGraph

/-!
## ShortestPaths (src/core/shortest_paths.py)

Python keeps two dicts `self.distances[src][end]` and `self.paths[src][end]`
that are always written together, so we model them as one table from ordered
pairs to an optional `(distance, predecessor)` entry.  A missing entry is an
absent dict key (unreachable).
-/

/-- The combined `distances`/`paths` table of `ShortestPaths`. -/
def Tbl (α : Type) := α × α → Option (Nat × α)

/-- Write one `(distance, predecessor)` entry, as the pair of Python
assignments `self.distances[src][end] = ...; self.paths[src][end] = ...`. -/
def tset (t : Tbl α) (k : α × α) (v : Nat × α) : Tbl α :=
  fun k' => if k' = k then some v else t k'

/-- First pass of `ShortestPaths.parse`: for every node and every successor
`child ≠ node`, set `paths[node][child] = node` and
`distances[node][child] = 1`.  The net effect of the Python loops is this
pointwise table. -/
def fwInit (g : MultiDiGraph α) : Tbl α :=
  fun p => if p.1 ≠ p.2 ∧ g.hasEdgeB p.1 p.2 then some (1, p.1) else none

/-- Body of the innermost loop of `ShortestPaths.parse` for midpoint `m`,
source `s` and target `e`:

    if src == end: continue
    if end not in self.distances[mid]: continue
    if end in self.distances[src] and
       self.distances[src][end] <= self.distances[src][mid] + self.distances[mid][end]:
        continue
    self.distances[src][end] = self.distances[src][mid] + self.distances[mid][end]
    self.paths[src][end] = self.paths[mid][end]

The `t (s, m) = none` branch cannot be reached in actual runs: the row-level
guard checked presence and entries are never deleted (Python would raise a
`KeyError` there; no run reaches it). -/
def relaxStep (m s : α) (t : Tbl α) (e : α) : Tbl α :=
  if s = e then t
  else
    match t (m, e) with
    | none => t
    | some (d2, p2) =>
      match t (s, m) with
      | none => t
      | some (d1, _) =>
        match t (s, e) with
        | some (d0, _) => if d0 ≤ d1 + d2 then t else tset t (s, e) (d1 + d2, p2)
        | none => tset t (s, e) (d1 + d2, p2)

/-- One `src` iteration of `ShortestPaths.parse`: skip the whole inner loop
when `mid not in self.distances[src]`. -/
def relaxRow (m s : α) (ends : List α) (t : Tbl α) : Tbl α :=
  if (t (s, m)).isSome then ends.foldl (relaxStep m s) t else t

/-- One midpoint pass of `ShortestPaths.parse`. -/
def fwPass (m : α) (srcs ends : List α) (t : Tbl α) : Tbl α :=
  srcs.foldl (fun t s => relaxRow m s ends t) t

/-- The triple loop of `ShortestPaths.parse`. -/
def fwLoop (mids srcs ends : List α) (t : Tbl α) : Tbl α :=
  mids.foldl (fun t m => fwPass m srcs ends t) t

/-- The table computed by `ShortestPaths.parse` for graph `g`. -/
def floydTables (g : MultiDiGraph α) : Tbl α :=
  fwLoop g.nodes g.nodes g.nodes (fwInit g)

/-- Model of `ShortestPaths.recreate`/`__init__`: reject an empty graph, otherwise
return the parsed tables.  (The `None`-graph and not-a-multidigraph checks
concern Python dynamic typing and have no counterpart on our graph type.) -/
def shortestPathsOf (g : MultiDiGraph α) : Except String (Tbl α) :=
  if g.size = 0 then .error "MultiDiGraph is empty"
  else .ok (floydTables g)

/-- Model of `ShortestPaths.get_shortest_path_length(start, end)`: raise when either
node is absent; otherwise the stored finite distance, or `none` — the
unreachable sentinel (Python `None`). -/
def getShortestPathLength (g : MultiDiGraph α) (t : Tbl α) (s e : α) :
    Except String (Option Nat) :=
  if s ∉ g.nodes then .error "start node not contained in graph"
  else if e ∉ g.nodes then .error "end node not contained in graph"
  else .ok ((t (s, e)).map fun v => v.1)

/-- The backward predecessor chase of `ShortestPaths.get_shortest_path`:

    ret = [end]
    while end in self.paths[start]:
        next_item = self.paths[start][end]
        ret.append(next_item)
        end = next_item

The Python loop has no fuel; we supply the stored distance as fuel and prove
below that for tables produced by `parse` the chase reaches its fixed point
within exactly that many steps, so the bounded and unbounded loops agree on
every table this program ever builds. -/
def chase (t : Tbl α) (s : α) : Nat → α → List α
  | 0, e => [e]
  | fuel + 1, e =>
    match t (s, e) with
    | none => [e]
    | some (_, p) => e :: chase t s fuel p

/-- Model of `ShortestPaths.get_shortest_path(start, end)`: membership checks, the
backward chase, the `ret[-1] != start` failure check (Python returns `None`),
then reversal. -/
def getShortestPath (g : MultiDiGraph α) (t : Tbl α) (s e : α) :
    Except String (Option (List α)) :=
  if s ∉ g.nodes then .error "start node not contained in graph"
  else if e ∉ g.nodes then .error "end node not contained in graph"
  else
    let fuel := match t (s, e) with | some (d, _) => d | none => 0
    let ret := chase t s fuel e
    if ret.getLast? ≠ some s then .ok none
    else .ok (some ret.reverse)

/-!
## Walks and the Floyd–Warshall invariants

`WalkLen g u v d` : there is a walk of exactly `d` edges from `u` to `v`.
`WalkVia g M u v d` : such a walk all of whose inner vertices lie in `M`
(the standard midpoint-restricted walks of the Floyd–Warshall argument).
-/

inductive WalkLen (g : MultiDiGraph α) : α → α → Nat → Prop
  | nil (u : α) : WalkLen g u u 0
  | cons {u w v : α} {n : Nat} :
      g.hasEdgeB u w = true → WalkLen g w v n → WalkLen g u v (n + 1)

inductive WalkVia (g : MultiDiGraph α) (M : List α) : α → α → Nat → Prop
  | nil (u : α) : WalkVia g M u u 0
  | single {u v : α} : g.hasEdgeB u v = true → WalkVia g M u v 1
  | cons {u w v : α} {n : Nat} :
      g.hasEdgeB u w = true → w ∈ M → WalkVia g M w v (n + 1) →
      WalkVia g M u v (n + 2)

/-- The invariants of the `parse` tables that hold at every point of the
triple loop. -/
structure FWInv (g : MultiDiGraph α) (t : Tbl α) : Prop where
  diag : ∀ u, t (u, u) = none
  pos : ∀ u v d p, t (u, v) = some (d, p) → 1 ≤ d
  sound : ∀ u v d p, t (u, v) = some (d, p) → WalkLen g u v d
  predEdge : ∀ u v d p, t (u, v) = some (d, p) → g.hasEdgeB p v = true
  predWalk : ∀ u v d p, t (u, v) = some (d, p) →
      p = u ∨ ∃ L, WalkLen g u p L ∧ L + 1 ≤ d

/-- Entries of the table only improve over time: presence is monotone and
stored distances never increase. -/
def tle (t t' : Tbl α) : Prop :=
  ∀ k d p, t k = some (d, p) → ∃ d' p', t' k = some (d', p') ∧ d' ≤ d

/-- Completeness with respect to walks restricted to midpoints `M`: the
table already stores a distance no larger than any such walk. -/
def complVia (g : MultiDiGraph α) (M : List α) (t : Tbl α) : Prop :=
  ∀ u v d, u ≠ v → WalkVia g M u v d →
    ∃ d' p', t (u, v) = some (d', p') ∧ d' ≤ d


/-!
## DuplicationsFinder (src/core/duplications_finder.py)
-/

/-- Step 1 of `find_matching`:
`self.degree_surplus[node] = out_degree - in_degree`. -/
def degreeSurplus (g : MultiDiGraph α) (n : α) : Int :=
  (g.outDegree n : Int) - (g.inDegree n : Int)

/-- Step 2 of `find_matching`, deficit side: each node with negative
surplus contributes `(node, i)` copies for `i < |surplus|`, iterating the
`degree_surplus` dict in node order. -/
def leftSet (g : MultiDiGraph α) : List (α × Nat) :=
  g.nodes.flatMap fun n =>
    if degreeSurplus g n < 0 then
      (List.range (degreeSurplus g n).natAbs).map fun i => (n, i)
    else []

/-- Step 2 of `find_matching`, surplus side. -/
def rightSet (g : MultiDiGraph α) : List (α × Nat) :=
  g.nodes.flatMap fun n =>
    if 0 < degreeSurplus g n then
      (List.range (degreeSurplus g n).natAbs).map fun i => (n, i)
    else []

/-- Steps 3–4 of `find_matching`.  The code builds the complete bipartite
graph (attaching `sp.get_shortest_path_length` values as weights) and calls
`nx.bipartite.eppstein_matching`, a maximum-cardinality matching that never
consults weights.  On the complete bipartite graph with equally long sides
the algorithm's initial greedy phase — pair each left vertex with the first
still-unmatched right vertex in adjacency order — is already a perfect
matching, so the augmentation phase does nothing; this function is that
greedy phase. -/
def eppsteinGreedy : List (α × Nat) → List (α × Nat) →
    List ((α × Nat) × (α × Nat))
  | [], _ => []
  | _ :: _, [] => []
  | l :: ls, r :: rs => (l, r) :: eppsteinGreedy ls rs

/-- One `self.matching[source[0]].append(dest[0])` update of the plan dict
(insertion-ordered, as Python dicts are). -/
def planAdd (pl : List (α × List α)) (s d : α) : List (α × List α) :=
  match pl with
  | [] => [(s, [d])]
  | (n, ds) :: rest =>
    if n = s then (n, ds ++ [d]) :: rest else (n, ds) :: planAdd rest s d

/-- The `self.matching` dict built from the matched pairs, in left-set
order. -/
def buildPlan (pairs : List ((α × Nat) × (α × Nat))) : List (α × List α) :=
  pairs.foldl (fun pl p => planAdd pl p.1.1 p.2.1) []

/-- Model of `DuplicationsFinder.recreate` followed by `find_matching`: reject an
empty graph, then compute surpluses, the two copy multisets and the
matching.  The shortest-path weights are computed for graph nodes only
(`lnode[0]`, `rnode[0]` are always nodes), so the weight queries never
raise, and the matching itself never consults them. -/
def findMatching (g : MultiDiGraph α) : Except String (List (α × List α)) :=
  if g.size = 0 then .error "MultiDiGraph is empty"
  else .ok (buildPlan (eppsteinGreedy (leftSet g) (rightSet g)))

/-- The matched `(deficit node, surplus node)` pairs hidden in a plan dict,
in iteration order of `self.to_duplicate.items()`. -/
def planPairs (pl : List (α × List α)) : List (α × α) :=
  pl.flatMap fun p => p.2.map fun d => (p.1, d)

/-- The cost the spec assigns to one matched pair: the shortest-path
distance from the deficit node to the surplus node (`none` when
unreachable). -/
def pairCost (t : Tbl α) (p : α × α) : Option Nat :=
  (t p).map fun v => v.1

/-- The total cost of a duplication plan: the sum of its pair costs,
`none` if any pair is unreachable. -/
def planCost (t : Tbl α) (pl : List (α × List α)) : Option Nat :=
  (planPairs pl).foldl
    (fun acc p =>
      match acc, pairCost t p with
      | some a, some c => some (a + c)
      | _, _ => none)
    (some 0)

/-!
## ChinesePostmanPath (src/core/chinese_postman_path.py)
-/

/-- The inner edge-insertion loop of `duplicate_paths`:

    for i in range(len(path) - 1):
        self.g.add_edge(path[i], path[i + 1], key=self.g.size())
-/
def addChain (g : MultiDiGraph α) : List α → MultiDiGraph α
  | a :: b :: rest => addChain (g.addEdge a b g.size) (b :: rest)
  | _ => g

/-- One iteration of the `duplicate_paths` loop: reconstruct the shortest
path for a matched `(deficit, surplus)` pairing from the (stale) table —
checking node membership against the live graph — and duplicate its edges;
a `None` path makes Python crash on `len(None)` with a `TypeError`. -/
def dupStep (t : Tbl α) (g : MultiDiGraph α) (sd : α × α) :
    Except String (MultiDiGraph α) :=
  match getShortestPath g t sd.1 sd.2 with
  | .error msg => .error msg
  | .ok none => .error "TypeError: object of type NoneType has no len()"
  | .ok (some path) => .ok (addChain g path)

/-- Model of `ChinesePostmanPath.duplicate_paths`: run `DuplicationsFinder` on the
current graph (reusing the pre-built `self.s_paths` table for weights,
which the matching ignores), then duplicate the reconstructed shortest path
of every matched pairing, mutating the graph as it goes. -/
def duplicatePaths (g : MultiDiGraph α) (t : Tbl α) :
    Except String (MultiDiGraph α) := do
  let plan ← findMatching g
  (planPairs plan).foldlM (dupStep t) g

/-- Model of `g.remove_edge(u, v)`: removes one parallel `(u, v)` edge — networkx
pops an arbitrary entry of `self.adj[u][v]`; we take the first in insertion
order, and no theorem below depends on which copy is picked — or raises
when there is none. -/
def removeFirstUV : List (α × α × Nat) → α → α → List (α × α × Nat)
  | [], _, _ => []
  | e :: es, u, v =>
    if e.1 = u ∧ e.2.1 = v then es else e :: removeFirstUV es u v

/-- The `remove_edge` call of `find_tour`, with its error path. -/
def removeEdgeUV (g : MultiDiGraph α) (u v : α) :
    Except String (MultiDiGraph α) :=
  if g.hasEdgeB u v then .ok { g with edges := removeFirstUV g.edges u v }
  else .error "The edge end-start not in graph."

/-- Model of `ChinesePostmanPath.find_tour_recursive_helper`: depth-first,
edge-disjoint search with backtracking.

    if len(path) == self.g.size(): return path
    for item in self.g.out_edges(cur_node, keys=True, data=True):
        if item[2] not in edge_keys:
            new_path = ...recurse...(item[1], path + [item], edge_keys | {item[2]})
            if new_path is not None: return new_path
    return None

The Python recursion needs no fuel because every call grows `path` by one;
we pass `g.size - path.length` as fuel (established at the call site), so
the fuel never runs out before the base case fires. -/
def dfsHelper (g : MultiDiGraph α) :
    Nat → α → List (α × α × Nat) → List Nat → Option (List (α × α × Nat))
  | 0, _, path, _ =>
    if path.length = g.size then some path else none
  | fuel' + 1, cur, path, used =>
    if path.length = g.size then some path
    else
      (g.outEdges cur).foldl
        (fun acc e =>
          match acc with
          | some r => some r
          | none =>
            if e.2.2 ∈ used then none
            else dfsHelper g fuel' e.2.1 (path ++ [e]) (e.2.2 :: used))
        none

/-- Model of `ChinesePostmanPath.find_tour` (as wired by `__init__`): build the
ShortestPaths table over the caller's graph, duplicate the matched paths,
remove one edge between the nodes *literally named* `'end'` and `'start'`
(the string literals from the source — not the designated start/end
parameters), then depth-first search from the designated start node.
Returns the duplicated graph, the mutated graph and `self.shortest_tour`
for the theorems to inspect. -/
def findTourAux (g : MultiDiGraph String) (start e : String) :
    Except String
      (MultiDiGraph String × MultiDiGraph String ×
        Option (List (String × String × Nat))) := do
  let t ← shortestPathsOf g
  let gd ← duplicatePaths g t
  let gm ← removeEdgeUV gd "end" "start"
  return (gd, gm, dfsHelper gm gm.size start [] [])

/-- The observable outcome of `ChinesePostmanPath.__init__`:
`self.shortest_tour`, or the exception. -/
def findTour (g : MultiDiGraph String) (start e : String) :
    Except String (Option (List (String × String × Nat))) :=
  (findTourAux g start e).map fun r => r.2.2

/-!
## Concrete graphs used by the witnesses and counterexamples

Node identifiers are strings, as produced by the repository's API layer
(`api/forms.py` declares `from`/`to`/`start`/`end` as string fields); edge
keys are assigned in insertion order as `api/app.py` does.
-/

/-- The empty multigraph. -/
def exEmpty : MultiDiGraph String := ⟨[], []⟩

/-- A single edge `a → b`. -/
def exG1 : MultiDiGraph String := ⟨["a", "b"], [("a", "b", 0)]⟩

/-- A two-cycle `a → b → a`. -/
def exCycle2 : MultiDiGraph String :=
  ⟨["a", "b"], [("a", "b", 0), ("b", "a", 1)]⟩

/-- A two-edge path `a → b → c`. -/
def exPath2 : MultiDiGraph String :=
  ⟨["a", "b", "c"], [("a", "b", 0), ("b", "c", 1)]⟩

/-- The assignment-cost gap graph: edges inserted in the order
`d→a, d→b, a→c, c→b, b→d, c→a`.  Deficit copies (in node order) are
`a, b`; surplus copies are `d, c`; distances are `a→d = 3`, `a→c = 1`,
`b→c = 3`, `b→d = 1`. -/
def exG2 : MultiDiGraph String :=
  ⟨["d", "a", "b", "c"],
   [("d", "a", 0), ("d", "b", 1), ("a", "c", 2), ("c", "b", 3),
    ("b", "d", 4), ("c", "a", 5)]⟩

/-- A single edge `b → a`: `a` is a deficit node with no path to the
surplus node `b`. -/
def exG3 : MultiDiGraph String := ⟨["b", "a"], [("b", "a", 0)]⟩

/-- A balanced but disconnected graph: the `start`/`end` two-cycle plus a
self-loop on an unreachable node `a`; no covering tour exists, yet every
degree balances, so construction raises nothing. -/
def exG5 : MultiDiGraph String :=
  ⟨["end", "start", "a"],
   [("end", "start", 0), ("start", "end", 1), ("a", "a", 2)]⟩

/-- A graph with one unit of imbalance: `a → b` plus a doubled `b → a`;
the duplication step adds one copy of the shortest path `a → b`. -/
def exDup : MultiDiGraph String :=
  ⟨["a", "b"], [("a", "b", 0), ("b", "a", 1), ("b", "a", 2)]⟩

/-- A two-cycle on nodes named `s` and `t` (not literally
`start`/`end`). -/
def exG6 : MultiDiGraph String := ⟨["s", "t"], [("s", "t", 0), ("t", "s", 1)]⟩

/-- The minimal healthy input: a two-cycle on the literally named
`start`/`end` nodes, with the synthetic `end → start` edge in place. -/
def exStartEnd : MultiDiGraph String :=
  ⟨["start", "end"], [("start", "end", 0), ("end", "start", 1)]⟩

theorem WalkLen.trans {g : MultiDiGraph α} {u v w : α} {d1 d2 : Nat}
    (h1 : WalkLen g u v d1) (h2 : WalkLen g v w d2) :
    WalkLen g u w (d1 + d2) := by
  induction h1 with
  | nil => simpa using h2
  | cons e _ ih =>
    have := WalkLen.cons e (ih h2)
    simpa [Nat.add_right_comm] using this

theorem WalkVia.toWalkLen {g : MultiDiGraph α} {M : List α} {u v : α} {d : Nat}
    (h : WalkVia g M u v d) : WalkLen g u v d := by
  induction h with
  | nil => exact WalkLen.nil _
  | single e => exact WalkLen.cons e (WalkLen.nil _)
  | cons e _ _ ih => exact WalkLen.cons e ih

theorem WalkVia.zero_eq_ends {g : MultiDiGraph α} {M : List α} {u v : α}
    (h : WalkVia g M u v 0) : u = v := by
  cases h; rfl

theorem WalkLen.zero_eq_src {g : MultiDiGraph α} {u v : α}
    (h : WalkLen g u v 0) : u = v := by
  cases h; rfl

/-- Every endpoint of an edge is a node of a well-formed graph. -/
theorem hasEdgeB_mem {g : MultiDiGraph α} (hw : g.WF) {u v : α}
    (h : g.hasEdgeB u v = true) : u ∈ g.nodes ∧ v ∈ g.nodes := by
  unfold MultiDiGraph.hasEdgeB at h
  rcases List.any_eq_true.mp h with ⟨e, he, hprop⟩
  rcases (by simpa using hprop : e.1 = u ∧ e.2.1 = v) with ⟨h1, h2⟩
  have := hw.2 e he
  rw [h1, h2] at this
  exact this

/-- In a well-formed graph, every walk is a midpoint-restricted walk over
the full node list. -/
theorem WalkLen.toVia {g : MultiDiGraph α} (hw : g.WF) {u v : α} {d : Nat}
    (h : WalkLen g u v d) : WalkVia g g.nodes u v d := by
  induction h with
  | nil => exact WalkVia.nil _
  | @cons u w v n e rest ih =>
    cases n with
    | zero =>
      have : w = v := rest.zero_eq_src
      subst this
      exact WalkVia.single e
    | succ n =>
      exact WalkVia.cons e (hasEdgeB_mem hw e).2 ih

theorem fwInit_entry {g : MultiDiGraph α} {u v : α} {d : Nat} {p : α}
    (h : fwInit g (u, v) = some (d, p)) :
    u ≠ v ∧ g.hasEdgeB u v = true ∧ d = 1 ∧ p = u := by
  have h' : (if u ≠ v ∧ g.hasEdgeB u v = true then some (1, u) else none :
      Option (Nat × α)) = some (d, p) := h
  split at h'
  · next hc =>
    injection h' with h''
    injection h'' with h1 h2
    exact ⟨hc.1, hc.2, h1.symm, h2.symm⟩
  · next => cases h'

theorem fwInit_inv {g : MultiDiGraph α} : FWInv g (fwInit g) := by
  constructor
  · intro u; simp [fwInit]
  · intro u v d p h
    have := fwInit_entry h
    omega
  · intro u v d p h
    obtain ⟨_, he, hd, _⟩ := fwInit_entry h
    rw [hd]
    exact WalkLen.cons he (WalkLen.nil v)
  · intro u v d p h
    obtain ⟨_, he, _, hp⟩ := fwInit_entry h
    rw [hp]; exact he
  · intro u v d p h
    obtain ⟨_, _, _, hp⟩ := fwInit_entry h
    exact Or.inl hp

/-- A single relaxation step preserves the invariants. -/
theorem relaxStep_inv {g : MultiDiGraph α} {t : Tbl α} (m s : α) (e : α)
    (ht : FWInv g t) : FWInv g (relaxStep m s t e) := by
  unfold relaxStep
  by_cases hse : s = e
  · simpa [hse] using ht
  simp only [if_neg hse]
  cases hme : t (m, e) with
  | none => exact ht
  | some v2 =>
    obtain ⟨d2, p2⟩ := v2
    cases hsm : t (s, m) with
    | none => exact ht
    | some v1 =>
      obtain ⟨d1, p1⟩ := v1
      have base : FWInv g (tset t (s, e) (d1 + d2, p2)) := by
        have hd1 : 1 ≤ d1 := ht.pos _ _ _ _ hsm
        have hd2 : 1 ≤ d2 := ht.pos _ _ _ _ hme
        have hwsm : WalkLen g s m d1 := ht.sound _ _ _ _ hsm
        have hwme : WalkLen g m e d2 := ht.sound _ _ _ _ hme
        constructor
        · intro u
          unfold tset
          have : (u, u) ≠ (s, e) := by
            intro hcontra
            apply hse
            have h1 : u = s := (Prod.mk.injEq _ _ _ _ ▸ hcontra).1
            have h2 : u = e := (Prod.mk.injEq _ _ _ _ ▸ hcontra).2
            rw [← h1, h2]
          simp [this, ht.diag u]
        · intro u v d p h
          unfold tset at h
          by_cases hk : (u, v) = (s, e)
          · simp [hk] at h
            omega
          · simp [hk] at h
            exact ht.pos _ _ _ _ h
        · intro u v d p h
          unfold tset at h
          by_cases hk : (u, v) = (s, e)
          · obtain ⟨hu, hv⟩ := Prod.mk.injEq _ _ _ _ ▸ hk
            subst hu; subst hv
            simp at h
            rw [← h.1]
            exact hwsm.trans hwme
          · simp [hk] at h
            exact ht.sound _ _ _ _ h
        · intro u v d p h
          unfold tset at h
          by_cases hk : (u, v) = (s, e)
          · obtain ⟨hu, hv⟩ := Prod.mk.injEq _ _ _ _ ▸ hk
            subst hu; subst hv
            simp at h
            rw [← h.2]
            exact ht.predEdge _ _ _ _ hme
          · simp [hk] at h
            exact ht.predEdge _ _ _ _ h
        · intro u v d p h
          unfold tset at h
          by_cases hk : (u, v) = (s, e)
          · obtain ⟨hu, hv⟩ := Prod.mk.injEq _ _ _ _ ▸ hk
            subst hu; subst hv
            simp at h
            obtain ⟨hd, hp⟩ := h
            rcases ht.predWalk _ _ _ _ hme with hpm | ⟨L, hwmL, hL⟩
            · -- predecessor of (m, e) is m itself
              by_cases hms : m = u
              · left; rw [← hp, hpm, hms]
              · right
                exact ⟨d1, by rw [← hp, hpm]; exact hwsm, by omega⟩
            · right
              exact ⟨d1 + L, by rw [← hp]; exact hwsm.trans hwmL, by omega⟩
          · simp [hk] at h
            exact ht.predWalk _ _ _ _ h
      cases hte : t (s, e) with
      | none => exact base
      | some v0 =>
        obtain ⟨d0, p0⟩ := v0
        by_cases hle : d0 ≤ d1 + d2
        · simpa [hle] using ht
        · simpa [hle] using base

theorem foldl_preserve {β σ : Type} {P : σ → Prop} (f : σ → β → σ)
    (hstep : ∀ t e, P t → P (f t e)) :
    ∀ (l : List β) (t : σ), P t → P (l.foldl f t) := by
  intro l
  induction l with
  | nil => intro t ht; simpa using ht
  | cons x xs ih =>
    intro t ht
    simpa using ih (f t x) (hstep t x ht)

theorem relaxRow_inv {g : MultiDiGraph α} {t : Tbl α} (m s : α) (ends : List α)
    (ht : FWInv g t) : FWInv g (relaxRow m s ends t) := by
  unfold relaxRow
  by_cases h : (t (s, m)).isSome
  · simp only [if_pos h]
    exact foldl_preserve _ (fun t e ht => relaxStep_inv m s e ht) ends t ht
  · simpa [h] using ht

theorem fwPass_inv {g : MultiDiGraph α} {t : Tbl α} (m : α) (srcs ends : List α)
    (ht : FWInv g t) : FWInv g (fwPass m srcs ends t) :=
  foldl_preserve _ (fun t s ht => relaxRow_inv m s ends ht) srcs t ht

theorem fwLoop_inv {g : MultiDiGraph α} {t : Tbl α} (mids srcs ends : List α)
    (ht : FWInv g t) : FWInv g (fwLoop mids srcs ends t) :=
  foldl_preserve _ (fun t m ht => fwPass_inv m srcs ends ht) mids t ht

theorem floydTables_inv (g : MultiDiGraph α) : FWInv g (floydTables g) :=
  fwLoop_inv _ _ _ fwInit_inv

theorem tle_refl (t : Tbl α) : tle t t :=
  fun k d p h => ⟨d, p, h, le_refl d⟩

theorem tle_trans {t₁ t₂ t₃ : Tbl α} (h1 : tle t₁ t₂) (h2 : tle t₂ t₃) :
    tle t₁ t₃ := by
  intro k d p h
  obtain ⟨d', p', h', hle⟩ := h1 k d p h
  obtain ⟨d'', p'', h'', hle'⟩ := h2 k d' p' h'
  exact ⟨d'', p'', h'', le_trans hle' hle⟩

/-- Case analysis on what one relaxation step does: it either leaves the
table unchanged, or overwrites the key `(s, e)` with a strictly better
spliced value. -/
theorem relaxStep_shape {t : Tbl α} (m s e : α) :
    relaxStep m s t e = t ∨
    ∃ d1 p1 d2 p2, s ≠ e ∧ t (s, m) = some (d1, p1) ∧ t (m, e) = some (d2, p2) ∧
      (∀ d0 p0, t (s, e) = some (d0, p0) → d1 + d2 < d0) ∧
      relaxStep m s t e = tset t (s, e) (d1 + d2, p2) := by
  by_cases hse : s = e
  · left; unfold relaxStep; rw [if_pos hse]
  cases hme : t (m, e) with
  | none => left; unfold relaxStep; rw [if_neg hse, hme]
  | some v2 =>
    obtain ⟨d2, p2⟩ := v2
    cases hsm : t (s, m) with
    | none => left; unfold relaxStep; rw [if_neg hse, hme, hsm]
    | some v1 =>
      obtain ⟨d1, p1⟩ := v1
      cases hte : t (s, e) with
      | none =>
        right
        refine ⟨d1, p1, d2, p2, hse, rfl, rfl, ?_, ?_⟩
        · intro d0 p0 h0
          cases h0
        · unfold relaxStep
          rw [if_neg hse, hme, hsm, hte]
      | some v0 =>
        obtain ⟨d0, p0⟩ := v0
        by_cases hle : d0 ≤ d1 + d2
        · left
          unfold relaxStep
          rw [if_neg hse, hme, hsm, hte]
          simp [hle]
        · right
          refine ⟨d1, p1, d2, p2, hse, rfl, rfl, ?_, ?_⟩
          · intro d0' p0' h0'
            injection h0' with h0''
            injection h0'' with ha hb
            omega
          · unfold relaxStep
            rw [if_neg hse, hme, hsm, hte]
            simp [hle]

/-- The step `relaxStep` touches only the key `(s, e)`. -/
theorem relaxStep_ne {t : Tbl α} {m s e : α} {k : α × α} (hk : k ≠ (s, e)) :
    relaxStep m s t e k = t k := by
  rcases relaxStep_shape (t := t) m s e with heq | ⟨d1, p1, d2, p2, _, _, _, _, heq⟩
  · rw [heq]
  · rw [heq]; simp [tset, hk]

theorem relaxStep_tle {t : Tbl α} (m s e : α) : tle t (relaxStep m s t e) := by
  intro k d p h
  rcases relaxStep_shape (t := t) m s e with heq | ⟨d1, p1, d2, p2, _, _, _, himp, heq⟩
  · exact ⟨d, p, by rw [heq]; exact h, le_refl d⟩
  · by_cases hk : k = (s, e)
    · subst hk
      have := himp d p h
      exact ⟨d1 + d2, p2, by rw [heq]; simp [tset], by omega⟩
    · exact ⟨d, p, by rw [heq]; simpa [tset, hk] using h, le_refl d⟩

theorem foldl_tle {β : Type} {f : Tbl α → β → Tbl α}
    (hstep : ∀ t e, tle t (f t e)) :
    ∀ (l : List β) (t : Tbl α), tle t (l.foldl f t) := by
  intro l
  induction l with
  | nil => intro t; exact tle_refl t
  | cons x xs ih =>
    intro t
    exact tle_trans (hstep t x) (ih (f t x))

theorem relaxRow_tle {t : Tbl α} (m s : α) (ends : List α) :
    tle t (relaxRow m s ends t) := by
  unfold relaxRow
  split
  · exact foldl_tle (fun t e => relaxStep_tle m s e) ends t
  · exact tle_refl t

theorem fwPass_tle {t : Tbl α} (m : α) (srcs ends : List α) :
    tle t (fwPass m srcs ends t) :=
  foldl_tle (fun t s => relaxRow_tle m s ends) srcs t

theorem fwLoop_tle {t : Tbl α} (mids srcs ends : List α) :
    tle t (fwLoop mids srcs ends t) :=
  foldl_tle (fun t m => fwPass_tle m srcs ends) mids t

/-- During the pass for midpoint `m`, every entry in row `m` or column `m`
is left untouched (the diagonal guards prevent both writes). -/
theorem relaxStep_keep {g : MultiDiGraph α} {t : Tbl α} (ht : FWInv g t)
    (m s e : α) {k : α × α} (hk : k.1 = m ∨ k.2 = m) :
    relaxStep m s t e k = t k := by
  rcases relaxStep_shape (t := t) m s e with heq | ⟨d1, p1, d2, p2, _, hsm, hme, _, heq⟩
  · rw [heq]
  · -- a write to `(s, e)` requires present `(s, m)` and `(m, e)` entries,
    -- so `s ≠ m` and `e ≠ m`; hence `k` differs from `(s, e)`.
    have hsne : s ≠ m := by
      intro hcontra; rw [hcontra, ht.diag m] at hsm; cases hsm
    have hene : e ≠ m := by
      intro hcontra; rw [hcontra, ht.diag m] at hme; cases hme
    have hkne : k ≠ (s, e) := by
      intro hcontra
      subst hcontra
      rcases hk with h | h
      · exact hsne h
      · exact hene h
    rw [heq]; simp [tset, hkne]

/-- Invariant-and-freeze bundle for the inner fold of a midpoint pass. -/
theorem relaxSteps_keep {g : MultiDiGraph α} (m s : α) :
    ∀ (ends : List α) (t : Tbl α), FWInv g t →
      FWInv g (ends.foldl (relaxStep m s) t) ∧
      ∀ k : α × α, k.1 = m ∨ k.2 = m → ends.foldl (relaxStep m s) t k = t k := by
  intro ends
  induction ends with
  | nil => exact fun t ht => ⟨ht, fun k _ => rfl⟩
  | cons e erest ih =>
    intro t ht
    have h1 := relaxStep_inv (g := g) m s e ht
    have ih' := ih _ h1
    refine ⟨ih'.1, fun k hk => ?_⟩
    rw [List.foldl_cons, ih'.2 k hk, relaxStep_keep ht m s e hk]

theorem relaxRow_keep {g : MultiDiGraph α} {t : Tbl α} (ht : FWInv g t)
    (m s : α) (ends : List α) :
    FWInv g (relaxRow m s ends t) ∧
      ∀ k : α × α, k.1 = m ∨ k.2 = m → relaxRow m s ends t k = t k := by
  unfold relaxRow
  split
  · exact relaxSteps_keep m s ends t ht
  · exact ⟨ht, fun k _ => rfl⟩

/-- Invariant-and-freeze bundle for a whole midpoint pass: row `m` and
column `m` are unchanged by the pass. -/
theorem fwPass_keep {g : MultiDiGraph α} (m : α) (ends : List α) :
    ∀ (srcs : List α) (t : Tbl α), FWInv g t →
      FWInv g (fwPass m srcs ends t) ∧
      ∀ k : α × α, k.1 = m ∨ k.2 = m → fwPass m srcs ends t k = t k := by
  intro srcs
  induction srcs with
  | nil => exact fun t ht => ⟨ht, fun k _ => rfl⟩
  | cons s rest ih =>
    intro t ht
    have hrow := relaxRow_keep ht m s ends
    have ih' := ih _ hrow.1
    refine ⟨ih'.1, fun k hk => ?_⟩
    show fwPass m (s :: rest) ends t k = t k
    unfold fwPass
    rw [List.foldl_cons]
    have : rest.foldl (fun t s => relaxRow m s ends t) (relaxRow m s ends t) k
        = relaxRow m s ends t k := ih'.2 k hk
    rw [this, hrow.2 k hk]

/-- One relaxation at a known pair: if both `(u, m)` and `(m, v)` entries
are present, the step leaves `(u, v)` with a value at most their sum. -/
theorem relaxStep_at {t : Tbl α} {m u v : α} {d1 d2 : Nat} {p1 p2 : α}
    (huv : u ≠ v)
    (h1 : t (u, m) = some (d1, p1)) (h2 : t (m, v) = some (d2, p2)) :
    ∃ d' p', relaxStep m u t v (u, v) = some (d', p') ∧ d' ≤ d1 + d2 := by
  unfold relaxStep
  rw [if_neg huv, h2, h1]
  cases h0 : t (u, v) with
  | none => exact ⟨d1 + d2, p2, by simp [tset], le_refl _⟩
  | some v0 =>
    obtain ⟨d0, p0⟩ := v0
    by_cases hle : d0 ≤ d1 + d2
    · exact ⟨d0, p0, by simpa [hle] using h0, hle⟩
    · exact ⟨d1 + d2, p2, by simp [hle, tset], le_refl _⟩

/-- The relaxation guarantee of one midpoint pass: afterwards
`dist(u,v) ≤ dist(u,m) + dist(m,v)` holds (with the pre-pass right-hand
side values, which the pass does not change). -/
theorem fwPass_relax {g : MultiDiGraph α} {t : Tbl α} (ht : FWInv g t)
    {m u v : α} {srcs ends : List α} {d1 d2 : Nat} {p1 p2 : α}
    (hu : u ∈ srcs) (hv : v ∈ ends) (huv : u ≠ v)
    (h1 : t (u, m) = some (d1, p1)) (h2 : t (m, v) = some (d2, p2)) :
    ∃ d' p', fwPass m srcs ends t (u, v) = some (d', p') ∧ d' ≤ d1 + d2 := by
  obtain ⟨l1, l2, rfl⟩ := List.append_of_mem hu
  have hsplit : fwPass m (l1 ++ u :: l2) ends t
      = fwPass m l2 ends (relaxRow m u ends (fwPass m l1 ends t)) := by
    unfold fwPass
    rw [List.foldl_append, List.foldl_cons]
  rw [hsplit]
  have hkeep1 := fwPass_keep (g := g) m ends l1 t ht
  set t1 := fwPass m l1 ends t with ht1def
  have ht1inv : FWInv g t1 := hkeep1.1
  have h1' : t1 (u, m) = some (d1, p1) := by
    rw [hkeep1.2 (u, m) (Or.inr rfl)]; exact h1
  have h2' : t1 (m, v) = some (d2, p2) := by
    rw [hkeep1.2 (m, v) (Or.inl rfl)]; exact h2
  -- the row for `u` actually runs: the guard sees a present (u, m) entry
  have hrow : relaxRow m u ends t1 = ends.foldl (relaxStep m u) t1 := by
    unfold relaxRow
    rw [h1']
    simp
  rw [hrow]
  obtain ⟨e1, e2, rfl⟩ := List.append_of_mem hv
  rw [List.foldl_append, List.foldl_cons]
  have hkeep2 := relaxSteps_keep (g := g) m u e1 t1 ht1inv
  set t2 := e1.foldl (relaxStep m u) t1 with ht2def
  have h1'' : t2 (u, m) = some (d1, p1) := by
    rw [hkeep2.2 (u, m) (Or.inr rfl)]; exact h1'
  have h2'' : t2 (m, v) = some (d2, p2) := by
    rw [hkeep2.2 (m, v) (Or.inl rfl)]; exact h2'
  obtain ⟨d', p', hd', hle'⟩ := relaxStep_at huv h1'' h2''
  have hrest : tle (relaxStep m u t2 v)
      (l2.foldl (fun t s => relaxRow m s (e1 ++ v :: e2) t)
        (e2.foldl (relaxStep m u) (relaxStep m u t2 v))) :=
    tle_trans (foldl_tle (fun t e => relaxStep_tle m u e) e2 _)
      (foldl_tle (fun t s => relaxRow_tle m s (e1 ++ v :: e2)) l2 _)
  obtain ⟨d'', p'', h'', hle''⟩ := hrest (u, v) d' p' hd'
  exact ⟨d'', p'', h'', le_trans hle'' hle'⟩

/-- A walk whose endpoints differ starts with some edge out of its source. -/
theorem walkVia_src_edge {g : MultiDiGraph α} {M : List α} {u v : α} {n : Nat}
    (h : WalkVia g M u v (n + 1)) : ∃ w, g.hasEdgeB u w = true := by
  cases h with
  | single e => exact ⟨v, e⟩
  | @cons _ w _ _ e _ _ => exact ⟨w, e⟩

/-- A walk of positive length ends with some edge into its target. -/
theorem walkVia_dst_edge {g : MultiDiGraph α} {M : List α} {u v : α} {n : Nat}
    (h : WalkVia g M u v (n + 1)) : ∃ w, g.hasEdgeB w v = true := by
  induction n generalizing u with
  | zero =>
    cases h with
    | single e => exact ⟨u, e⟩
  | succ n ih =>
    cases h with
    | cons e _ rest => exact ih rest

/-- Decomposing a walk with inner vertices in `M ++ [m]`: either the walk
already avoids `m` inside, or it splits at `m` into two walks with inner
vertices in `M` (dropping any `m`-to-`m` loop in the middle). -/
theorem walkVia_extend {g : MultiDiGraph α} {M : List α} {m u v : α} {d : Nat}
    (h : WalkVia g (M ++ [m]) u v d) :
    (∃ d' ≤ d, WalkVia g M u v d') ∨
    (∃ d1 d2, WalkVia g M u m d1 ∧ WalkVia g M m v d2 ∧ d1 + d2 ≤ d) := by
  induction h with
  | nil w => exact Or.inl ⟨0, le_refl 0, WalkVia.nil w⟩
  | single e => exact Or.inl ⟨1, le_refl 1, WalkVia.single e⟩
  | @cons u w v n e hwm rest ih =>
    rcases List.mem_append.mp hwm with hwM | hwm'
    · -- the first inner vertex is an old midpoint
      rcases ih with ⟨d', hd', hwalk⟩ | ⟨d1, d2, hw1, hw2, hdd⟩
      · cases d' with
        | zero =>
          have : w = v := hwalk.zero_eq_ends
          subst this
          exact Or.inl ⟨1, by omega, WalkVia.single e⟩
        | succ n' =>
          exact Or.inl ⟨n' + 2, by omega, WalkVia.cons e hwM hwalk⟩
      · cases d1 with
        | zero =>
          have : w = m := hw1.zero_eq_ends
          subst this
          exact Or.inr ⟨1, d2, WalkVia.single e, hw2, by omega⟩
        | succ n1 =>
          exact Or.inr ⟨n1 + 2, d2, WalkVia.cons e hwM hw1, hw2, by omega⟩
    · -- the first inner vertex is the new midpoint m
      have hwm'' : w = m := by simpa using hwm'
      subst hwm''
      rcases ih with ⟨d', hd', hwalk⟩ | ⟨d1, d2, _, hw2, hdd⟩
      · exact Or.inr ⟨1, d', WalkVia.single e, hwalk, by omega⟩
      · exact Or.inr ⟨1, d2, WalkVia.single e, hw2, by omega⟩

theorem fwInit_compl {g : MultiDiGraph α} : complVia g [] (fwInit g) := by
  intro u v d huv hwalk
  cases hwalk with
  | nil => exact absurd rfl huv
  | single e =>
    refine ⟨1, u, ?_, le_refl 1⟩
    unfold fwInit
    simp [huv, e]
  | cons _ hmem _ => cases hmem

/-- Monotonicity `tle` transports completeness forward. -/
theorem complVia_mono {g : MultiDiGraph α} {M : List α} {t t' : Tbl α}
    (h : complVia g M t) (hle : tle t t') : complVia g M t' := by
  intro u v d huv hwalk
  obtain ⟨d', p', hd', hdle⟩ := h u v d huv hwalk
  obtain ⟨d'', p'', hd'', hdle'⟩ := hle (u, v) d' p' hd'
  exact ⟨d'', p'', hd'', le_trans hdle' hdle⟩

/-- A midpoint pass extends completeness from `M` to `M ++ [m]`. -/
theorem fwPass_compl {g : MultiDiGraph α} {t : Tbl α} {M : List α} {m : α}
    (hw : g.WF) (ht : FWInv g t) (hc : complVia g M t) :
    complVia g (M ++ [m]) (fwPass m g.nodes g.nodes t) := by
  intro u v d huv hwalk
  have hpassle : tle t (fwPass m g.nodes g.nodes t) := fwPass_tle m _ _
  rcases walkVia_extend hwalk with ⟨d', hd', hwalk'⟩ | ⟨d1, d2, hw1, hw2, hdd⟩
  · obtain ⟨d'', p'', hd'', hdle⟩ := complVia_mono hc hpassle u v d' huv hwalk'
    exact ⟨d'', p'', hd'', le_trans hdle hd'⟩
  · by_cases hum : u = m
    · subst hum
      have hd2 : d2 ≠ 0 := fun h0 => huv (h0 ▸ hw2).zero_eq_ends
      obtain ⟨d'', p'', hd'', hdle⟩ :=
        complVia_mono hc hpassle u v d2 huv hw2
      exact ⟨d'', p'', hd'', by omega⟩
    · by_cases hvm : v = m
      · subst hvm
        obtain ⟨d'', p'', hd'', hdle⟩ :=
          complVia_mono hc hpassle u v d1 huv hw1
        exact ⟨d'', p'', hd'', by omega⟩
      · -- both halves have positive length
        cases hd1 : d1 with
        | zero => exact absurd ((hd1 ▸ hw1).zero_eq_ends) hum
        | succ n1 =>
          cases hd2 : d2 with
          | zero => exact absurd ((hd2 ▸ hw2).zero_eq_ends).symm hvm
          | succ n2 =>
            subst hd1; subst hd2
            obtain ⟨d1', p1', hd1', h1le⟩ := hc u m (n1 + 1) hum hw1
            obtain ⟨d2', p2', hd2', h2le⟩ := hc m v (n2 + 1) (fun h => hvm h.symm) hw2
            have hu : u ∈ g.nodes := by
              obtain ⟨w, hweg⟩ := walkVia_src_edge hw1
              exact (hasEdgeB_mem hw hweg).1
            have hv : v ∈ g.nodes := by
              obtain ⟨w, hweg⟩ := walkVia_dst_edge hw2
              exact (hasEdgeB_mem hw hweg).2
            obtain ⟨d'', p'', hd'', hdle⟩ :=
              fwPass_relax ht hu hv huv hd1' hd2'
            exact ⟨d'', p'', hd'', by omega⟩

/-- The full loop establishes completeness for all midpoints. -/
theorem fwLoop_compl {g : MultiDiGraph α} (hw : g.WF) :
    ∀ (mids M : List α) (t : Tbl α), FWInv g t → complVia g M t →
      complVia g (M ++ mids) (fwLoop mids g.nodes g.nodes t) := by
  intro mids
  induction mids with
  | nil =>
    intro M t _ hc
    simpa [fwLoop] using hc
  | cons m rest ih =>
    intro M t ht hc
    have hpass := fwPass_compl (m := m) hw ht hc
    have hpassinv : FWInv g (fwPass m g.nodes g.nodes t) :=
      fwPass_inv m g.nodes g.nodes ht
    have := ih (M ++ [m]) _ hpassinv hpass
    have harr : M ++ [m] ++ rest = M ++ m :: rest := by simp
    rw [harr] at this
    exact this

/-- Completeness of the final table: the stored distance is no larger than
the length of any walk between distinct nodes. -/
theorem floydTables_complete {g : MultiDiGraph α} (hw : g.WF) {u v : α}
    {d : Nat} (huv : u ≠ v) (hwalk : WalkLen g u v d) :
    ∃ d' p', floydTables g (u, v) = some (d', p') ∧ d' ≤ d := by
  have := fwLoop_compl hw g.nodes [] (fwInit g) fwInit_inv fwInit_compl
  simp only [List.nil_append] at this
  exact this u v d huv (hwalk.toVia hw)

/-- A present entry never sits on the diagonal. -/
theorem floydTables_ne {g : MultiDiGraph α} {s e : α} {d : Nat} {p : α}
    (h : floydTables g (s, e) = some (d, p)) : s ≠ e := by
  intro hcontra
  subst hcontra
  rw [(floydTables_inv g).diag s] at h
  cases h

/-- Exactness of the predecessor structure of the final table: the stored
predecessor is an edge-predecessor, the distance-1 entries point straight
back at the source, and longer entries chain through an entry exactly one
step shorter. -/
theorem floydTables_pred {g : MultiDiGraph α} (hw : g.WF) {s e : α} {d : Nat}
    {p : α} (h : floydTables g (s, e) = some (d, p)) :
    g.hasEdgeB p e = true ∧
    (d = 1 → p = s) ∧
    (2 ≤ d → p ≠ s ∧ ∃ p', floydTables g (s, p) = some (d - 1, p')) := by
  have inv := floydTables_inv g
  have hse : s ≠ e := floydTables_ne h
  have hedge : g.hasEdgeB p e = true := inv.predEdge _ _ _ _ h
  refine ⟨hedge, ?_, ?_⟩
  · intro hd1
    rcases inv.predWalk _ _ _ _ h with hp | ⟨L, hwL, hLle⟩
    · exact hp
    · have : L = 0 := by omega
      subst this
      exact hwL.zero_eq_src.symm
  · intro hd2
    have hps : p ≠ s := by
      intro hcontra
      subst hcontra
      -- the predecessor edge alone is a walk of length 1, contradicting d ≥ 2
      have hwalk1 : WalkLen g p e 1 := WalkLen.cons hedge (WalkLen.nil e)
      obtain ⟨d', p', hd', hle'⟩ := floydTables_complete hw hse hwalk1
      rw [h] at hd'
      injection hd' with hd''
      injection hd'' with ha hb
      omega
    refine ⟨hps, ?_⟩
    rcases inv.predWalk _ _ _ _ h with hp | ⟨L, hwL, hLle⟩
    · exact absurd hp hps
    · have hsp : s ≠ p := fun hcontra => hps (hcontra.symm)
      obtain ⟨dp, pp, hdp, hdple⟩ := floydTables_complete hw hsp hwL
      -- the reverse bound: entry (s,p) plus the predecessor edge walks to e
      have hwsp : WalkLen g s p dp := inv.sound _ _ _ _ hdp
      have hwse : WalkLen g s e (dp + 1) :=
        hwsp.trans (WalkLen.cons hedge (WalkLen.nil e))
      obtain ⟨d'', p'', hd'', hle''⟩ := floydTables_complete hw hse hwse
      rw [h] at hd''
      injection hd'' with hd3
      injection hd3 with ha hb
      have : dp = d - 1 := by omega
      exact ⟨pp, by rw [← this]; exact hdp⟩

theorem chase_zero (t : Tbl α) (s e : α) : chase t s 0 e = [e] := rfl

theorem chase_succ (t : Tbl α) (s : α) (n : Nat) (e : α) :
    chase t s (n + 1) e =
      match t (s, e) with
      | none => [e]
      | some (_, p) => e :: chase t s n p := rfl

/-- Specification of the backward chase on the final table: starting from a
present `(s, e)` entry of distance `d` and with fuel `d`, the chase lists
`e` back to `s` along real edges, in exactly `d + 1` nodes. -/
theorem chase_spec {g : MultiDiGraph α} (hw : g.WF) :
    ∀ (d : Nat) (e p : α) (s : α),
      floydTables g (s, e) = some (d, p) →
      (chase (floydTables g) s d e).getLast? = some s ∧
      (chase (floydTables g) s d e).length = d + 1 ∧
      (chase (floydTables g) s d e).head? = some e ∧
      (chase (floydTables g) s d e).Chain' (fun a b => g.hasEdgeB b a = true) := by
  intro d
  induction d with
  | zero =>
    intro e p s h
    have := (floydTables_inv g).pos _ _ _ _ h
    omega
  | succ n ih =>
    intro e p s h
    obtain ⟨hedge, hone, htwo⟩ := floydTables_pred hw h
    cases n with
    | zero =>
      -- distance 1: the predecessor is s itself and the chase stops there
      have hps : p = s := hone rfl
      have hstep : chase (floydTables g) s 1 e = [e, s] := by
        rw [chase_succ, h, hps]
        exact rfl
      rw [hstep]
      refine ⟨rfl, rfl, rfl, ?_⟩
      rw [hps] at hedge
      exact List.chain'_cons.mpr ⟨hedge, List.chain'_singleton s⟩
    | succ n' =>
      obtain ⟨hps, p', hp'⟩ := htwo (by omega)
      have hstep : chase (floydTables g) s (n' + 1 + 1) e
          = e :: chase (floydTables g) s (n' + 1) p := by
        rw [chase_succ, h]
      have hprev : floydTables g (s, p) = some (n' + 1, p') := by
        simpa using hp'
      obtain ⟨ihlast, ihlen, ihhead, ihchain⟩ := ih p p' s hprev
      rw [hstep]
      refine ⟨?_, ?_, rfl, ?_⟩
      · cases hc : chase (floydTables g) s (n' + 1) p with
        | nil => rw [hc] at ihlen; cases ihlen
        | cons x xs =>
          rw [hc] at ihlast
          rw [List.getLast?_cons_cons]
          exact ihlast
      · simp [ihlen]
      · cases hc : chase (floydTables g) s (n' + 1) p with
        | nil => rw [hc] at ihlen; cases ihlen
        | cons x xs =>
          rw [hc] at ihhead ihchain
          have hx : x = p := by simpa using ihhead
          subst hx
          exact List.chain'_cons.mpr ⟨hedge, ihchain⟩

/-!
## Claims C4, C5, C8, C9 — the ShortestPaths component
-/

/-- C4 (counterexample): on the one-edge graph `a → b`, the query
`get_shortest_path_length('a', 'a')` returns the unreachable sentinel
`None`, not the distance `0` — `parse` skips every self pair, so the
diagonal of `self.distances` is never populated. -/
theorem C4_counterexample :
    getShortestPathLength exG1 (floydTables exG1) "a" "a" = .ok none ∧
    getShortestPathLength exG1 (floydTables exG1) "a" "a" ≠ .ok (some 0) := by
  constructor
  · decide
  · decide

/-- C4 (amended): for every successfully constructed ShortestPaths table
and every node `n` of its graph, `get_shortest_path_length(n, n)` returns
the unreachable sentinel (Python `None`), never a finite distance: the
diagonal is never written. -/
theorem C4_amended {g : MultiDiGraph α} {t : Tbl α}
    (hok : shortestPathsOf g = .ok t) {n : α} (hn : n ∈ g.nodes) :
    getShortestPathLength g t n n = .ok none := by
  unfold shortestPathsOf at hok
  split at hok
  · cases hok
  · injection hok with hok
    subst hok
    unfold getShortestPathLength
    have hmem : ¬n ∉ g.nodes := by simpa using hn
    rw [if_neg hmem, if_neg hmem, (floydTables_inv g).diag n]
    rfl

/-- Witness for C4 (amended), at the one-edge graph `a → b`. -/
theorem C4_amended_witness :
    getShortestPathLength exG1 (floydTables exG1) "a" "a" = .ok none :=
  C4_amended (g := exG1) rfl (by decide)

/-- C5 (confirmed): for every pair of nodes `u`, `v` present in the graph
with a finite `get_shortest_path_length(u, v)`, `get_shortest_path(u, v)`
returns a node sequence that starts with `u`, ends with `v`, whose
consecutive pairs are all edges of the graph, and whose edge count
(`length - 1`) equals `get_shortest_path_length(u, v)`. -/
theorem C5_theorem {g : MultiDiGraph α} {t : Tbl α} (hw : g.WF)
    (hok : shortestPathsOf g = .ok t) {u v : α} {d : Nat}
    (hlen : getShortestPathLength g t u v = .ok (some d)) :
    ∃ l, getShortestPath g t u v = .ok (some l) ∧ l.head? = some u ∧
      l.getLast? = some v ∧ l.length = d + 1 ∧
      l.Chain' (fun a b => g.hasEdgeB a b = true) := by
  unfold shortestPathsOf at hok
  split at hok
  · cases hok
  injection hok with hok
  subst hok
  unfold getShortestPathLength at hlen
  split at hlen
  · cases hlen
  split at hlen
  · cases hlen
  next hu' hv' =>
  injection hlen with hmap
  obtain ⟨⟨d', p⟩, hentry0, hfst⟩ := Option.map_eq_some'.mp hmap
  have hd : d' = d := hfst
  have hentry : floydTables g (u, v) = some (d, p) := by rw [hentry0, hd]
  obtain ⟨hlast, hlength, hhead, hchain⟩ := chase_spec hw d v p u hentry
  refine ⟨(chase (floydTables g) u d v).reverse, ?_, ?_, ?_, ?_, ?_⟩
  · unfold getShortestPath
    rw [if_neg hu', if_neg hv', hentry]
    simp [hlast]
  · rw [List.head?_reverse]
    exact hlast
  · rw [List.getLast?_reverse]
    exact hhead
  · rw [List.length_reverse]
    exact hlength
  · exact List.chain'_reverse.mpr hchain

/-- Witness for C5 at the path graph `a → b → c` with `u = a`, `v = c`:
the reconstructed path is `[a, b, c]` of edge count 2. -/
theorem C5_witness :
    ∃ l, getShortestPath exPath2 (floydTables exPath2) "a" "c" = .ok (some l) ∧
      l.head? = some "a" ∧ l.getLast? = some "c" ∧ l.length = 2 + 1 ∧
      l.Chain' (fun a b => exPath2.hasEdgeB a b = true) :=
  C5_theorem (g := exPath2) (by decide) rfl (by decide)

/-- C8 (confirmed): constructing the table on an empty graph fails with the
empty-graph error; querying `get_shortest_path_length` with an absent start
or end node fails with an unknown-node error; for present nodes the query
never fails and returns the stored finite distance or the unreachable
sentinel. -/
theorem C8_theorem (g : MultiDiGraph α) (s e : α) :
    (g.size = 0 → shortestPathsOf g = .error "MultiDiGraph is empty") ∧
    ((s ∉ g.nodes ∨ e ∉ g.nodes) →
      ∀ t : Tbl α, ∃ msg, getShortestPathLength g t s e = .error msg) ∧
    (s ∈ g.nodes → e ∈ g.nodes → ∀ t : Tbl α,
      getShortestPathLength g t s e = .ok ((t (s, e)).map fun v => v.1)) := by
  refine ⟨?_, ?_, ?_⟩
  · intro h0
    unfold shortestPathsOf
    rw [if_pos h0]
  · intro habs t
    unfold getShortestPathLength
    by_cases hs : s ∈ g.nodes
    · have he : e ∉ g.nodes := by
        rcases habs with h | h
        · exact absurd hs h
        · exact h
      exact ⟨"end node not contained in graph", by rw [if_neg (by simpa using hs), if_pos he]⟩
    · exact ⟨"start node not contained in graph", by rw [if_pos hs]⟩
  · intro hs he t
    unfold getShortestPathLength
    rw [if_neg (by simpa using hs), if_neg (by simpa using he)]

/-- Witness for C8: the empty graph is rejected; an absent node makes the
length query fail; present nodes give a plain `.ok` answer. -/
theorem C8_witness :
    shortestPathsOf exEmpty = .error "MultiDiGraph is empty" ∧
    (∃ msg, getShortestPathLength exG1 (floydTables exG1) "zz" "a"
      = .error msg) ∧
    getShortestPathLength exG1 (floydTables exG1) "a" "b"
      = .ok ((floydTables exG1 ("a", "b")).map fun v => v.1) :=
  ⟨(C8_theorem exEmpty "a" "a").1 (by decide),
   (C8_theorem exG1 "zz" "a").2.1 (Or.inl (by decide)) (floydTables exG1),
   (C8_theorem exG1 "a" "b").2.2 (by decide) (by decide) (floydTables exG1)⟩

/-- C9 (counterexample): on the two-cycle `a → b → a`, both
`length(a, b) = 1` and `length(b, a) = 1` are finite, but with `u = w = a`
the claim would force `length(a, a)` to be finite — the table returns the
unreachable sentinel instead. -/
theorem C9_counterexample :
    getShortestPathLength exCycle2 (floydTables exCycle2) "a" "b"
      = .ok (some 1) ∧
    getShortestPathLength exCycle2 (floydTables exCycle2) "b" "a"
      = .ok (some 1) ∧
    getShortestPathLength exCycle2 (floydTables exCycle2) "a" "a"
      = .ok none := by
  refine ⟨?_, ?_, ?_⟩ <;> decide

/-- C9 (amended): the triangle inequality holds for all nodes `u`, `v`, `w`
with `u ≠ w`: if `length(u,v)` and `length(v,w)` are finite then
`length(u,w)` is finite and at most their sum.  (For `u = w` the left side
is the unreachable sentinel, see the counterexample.) -/
theorem C9_amended {g : MultiDiGraph α} {t : Tbl α} (hw : g.WF)
    (hok : shortestPathsOf g = .ok t) {u v w : α} {d1 d2 : Nat}
    (huw : u ≠ w)
    (h1 : getShortestPathLength g t u v = .ok (some d1))
    (h2 : getShortestPathLength g t v w = .ok (some d2)) :
    ∃ d3, getShortestPathLength g t u w = .ok (some d3) ∧ d3 ≤ d1 + d2 := by
  unfold shortestPathsOf at hok
  split at hok
  · cases hok
  injection hok with hok
  subst hok
  unfold getShortestPathLength at h1 h2 ⊢
  split at h1
  · cases h1
  split at h1
  · cases h1
  next hu' hv' =>
  split at h2
  · cases h2
  split at h2
  · cases h2
  next _ hw' =>
  injection h1 with hmap1
  injection h2 with hmap2
  obtain ⟨⟨d1', p1⟩, hentry1, hfst1⟩ := Option.map_eq_some'.mp hmap1
  obtain ⟨⟨d2', p2⟩, hentry2, hfst2⟩ := Option.map_eq_some'.mp hmap2
  have he1 : floydTables g (u, v) = some (d1, p1) := by
    rw [hentry1, show d1' = d1 from hfst1]
  have he2 : floydTables g (v, w) = some (d2, p2) := by
    rw [hentry2, show d2' = d2 from hfst2]
  have hw1 : WalkLen g u v d1 := (floydTables_inv g).sound _ _ _ _ he1
  have hw2 : WalkLen g v w d2 := (floydTables_inv g).sound _ _ _ _ he2
  obtain ⟨d3, p3, hentry3, hle3⟩ :=
    floydTables_complete hw huw (hw1.trans hw2)
  rw [if_neg hu', if_neg hw', hentry3]
  exact ⟨d3, rfl, hle3⟩

/-- Witness for C9 (amended) on the path `a → b → c`:
`length(a,b) + length(b,c)` bounds a finite `length(a,c)`. -/
theorem C9_amended_witness :
    ∃ d3, getShortestPathLength exPath2 (floydTables exPath2) "a" "c"
      = .ok (some d3) ∧ d3 ≤ 1 + 1 :=
  @C9_amended String _ exPath2 (floydTables exPath2) (by decide) rfl
    "a" "b" "c" 1 1 (by decide) (by decide) (by decide)

/-!
## Claims C1 and C7 — the ImbalanceMatcher component
-/

/-- C1 (code bug): on `exG2` the deficit copies are `a, b` and the surplus
copies are `d, c`; the computed plan pairs `a` with `d` and `b` with `c`
at total shortest-path cost `3 + 3 = 6`, while the perfect matching of the
same two multisets that pairs `a` with `c` and `b` with `d` costs
`1 + 1 = 2`.  The matching step (`nx.bipartite.eppstein_matching`) is a
maximum-cardinality matching that never consults the edge weights, so it
cannot minimize total cost — the class docstring even announces
`maximum_weight_matching`, and the spec calls cost-minimization "the
semantically required behavior".  (Which non-minimal matching the Python 2
run returns depends on dict hash order; the model fixes insertion order,
under which the output is the cost-6 plan.  No iteration order makes a
weight-blind algorithm cost-minimizing on this graph.) -/
theorem C1_theorem :
    findMatching exG2 = .ok [("a", ["d"]), ("b", ["c"])] ∧
    planCost (floydTables exG2) [("a", ["d"]), ("b", ["c"])] = some 6 ∧
    planCost (floydTables exG2) [("a", ["c"]), ("b", ["d"])] = some 2 := by
  refine ⟨?_, ?_, ?_⟩
  · decide
  · decide
  · decide

/-- C7 (counterexample): on the one-edge graph `b → a`, the deficit node
`a` has no path to the surplus node `b` (`length(a, b)` is the unreachable
sentinel), yet `find_matching` still returns the duplication plan
`{a: [b]}` — no `InfeasibleGraphError` is raised (no such check, or
exception class, exists anywhere in the code base). -/
theorem C7_counterexample :
    findMatching exG3 = .ok [("a", ["b"])] ∧
    getShortestPathLength exG3 (floydTables exG3) "a" "b" = .ok none := by
  constructor
  · decide
  · decide

/-- C7 (amended): the matching component never fails on a non-empty graph:
it always produces a duplication plan, even when some deficit/surplus
pairing has unreachable cost (the sentinel is silently stored as an unused
edge weight).  Unreachability only surfaces later, when `duplicate_paths`
calls `len` on the `None` returned by `get_shortest_path`. -/
theorem C7_amended (g : MultiDiGraph α) (h : g.size ≠ 0) :
    ∃ pl, findMatching g = .ok pl := by
  unfold findMatching
  rw [if_neg h]
  exact ⟨_, rfl⟩

/-- Witness for C7 (amended) at the unreachable-pair graph `b → a`. -/
theorem C7_amended_witness : ∃ pl, findMatching exG3 = .ok pl :=
  C7_amended exG3 (by decide)

/-!
## The depth-first tour search
-/

theorem dfs_foldl_const {g : MultiDiGraph α} {fuel' : Nat}
    {path : List (α × α × Nat)} {used : List Nat}
    (l : List (α × α × Nat)) (r : List (α × α × Nat)) :
    l.foldl
      (fun acc e =>
        match acc with
        | some r' => some r'
        | none =>
          if e.2.2 ∈ used then none
          else dfsHelper g fuel' e.2.1 (path ++ [e]) (e.2.2 :: used))
      (some r) = some r := by
  induction l with
  | nil => rfl
  | cons x xs ih =>
    rw [List.foldl_cons]
    exact ih

theorem dfs_foldl_some {g : MultiDiGraph α} {fuel' : Nat}
    {path : List (α × α × Nat)} {used : List Nat}
    {l : List (α × α × Nat)} {res : List (α × α × Nat)}
    (h : l.foldl
      (fun acc e =>
        match acc with
        | some r => some r
        | none =>
          if e.2.2 ∈ used then none
          else dfsHelper g fuel' e.2.1 (path ++ [e]) (e.2.2 :: used))
      none = some res) :
    ∃ e ∈ l, e.2.2 ∉ used ∧
      dfsHelper g fuel' e.2.1 (path ++ [e]) (e.2.2 :: used) = some res := by
  induction l with
  | nil => cases h
  | cons x xs ih =>
    rw [List.foldl_cons] at h
    have h1 : xs.foldl
        (fun acc e =>
          match acc with
          | some r => some r
          | none =>
            if e.2.2 ∈ used then none
            else dfsHelper g fuel' e.2.1 (path ++ [e]) (e.2.2 :: used))
        (if x.2.2 ∈ used then none
          else dfsHelper g fuel' x.2.1 (path ++ [x]) (x.2.2 :: used))
        = some res := h
    by_cases hku : x.2.2 ∈ used
    · rw [if_pos hku] at h1
      obtain ⟨e, he, hfe⟩ := ih h1
      exact ⟨e, List.mem_cons_of_mem x he, hfe⟩
    · rw [if_neg hku] at h1
      cases hx : dfsHelper g fuel' x.2.1 (path ++ [x]) (x.2.2 :: used) with
      | some r =>
        rw [hx] at h1
        have heq : some r = some res := (dfs_foldl_const xs r).symm.trans h1
        injection heq with heq
        exact ⟨x, List.mem_cons_self x xs, hku, by rw [hx, heq]⟩
      | none =>
        rw [hx] at h1
        obtain ⟨e, he, hfe⟩ := ih h1
        exact ⟨e, List.mem_cons_of_mem x he, hfe⟩

theorem mem_outEdges {g : MultiDiGraph α} {cur : α} {e : α × α × Nat}
    (h : e ∈ g.outEdges cur) : e ∈ g.edges ∧ e.1 = cur := by
  unfold MultiDiGraph.outEdges at h
  have := List.mem_filter.mp h
  exact ⟨this.1, by simpa using this.2⟩

/-- Soundness of `find_tour_recursive_helper`: any returned path extends
the accumulator with edges of the graph whose keys are fresh and pairwise
distinct, forms a walk, starts at the current node, and has total length
equal to the graph's edge count. -/
theorem dfsHelper_spec {g : MultiDiGraph α} :
    ∀ (fuel : Nat) (cur : α) (path : List (α × α × Nat)) (used : List Nat)
      (res : List (α × α × Nat)),
      dfsHelper g fuel cur path used = some res →
      res.length = g.size ∧
      ∃ ext, res = path ++ ext ∧
        (∀ e ∈ ext, e ∈ g.edges) ∧
        (ext.map fun e => e.2.2).Nodup ∧
        (∀ k ∈ ext.map fun e => e.2.2, k ∉ used) ∧
        ext.Chain' (fun e e' => e.2.1 = e'.1) ∧
        (∀ e ∈ ext.head?, e.1 = cur) := by
  intro fuel
  induction fuel with
  | zero =>
    intro cur path used res h
    unfold dfsHelper at h
    split at h
    · next hlen =>
      injection h with h
      subst h
      exact ⟨hlen, [], by simp, by simp, by simp, by simp, List.chain'_nil,
        by simp⟩
    · cases h
  | succ fuel' ih =>
    intro cur path used res h
    unfold dfsHelper at h
    split at h
    · next hlen =>
      injection h with h
      subst h
      exact ⟨hlen, [], by simp, by simp, by simp, by simp, List.chain'_nil,
        by simp⟩
    · next hlen =>
      obtain ⟨e, he, hkey, hfe⟩ := dfs_foldl_some h
      obtain ⟨heg, hecur⟩ := mem_outEdges he
      · obtain ⟨hreslen, ext', hres, hextg, hnodup, hfresh, hchain, hhead⟩ :=
          ih e.2.1 (path ++ [e]) (e.2.2 :: used) res hfe
        refine ⟨hreslen, e :: ext', by simpa using hres, ?_, ?_, ?_, ?_, ?_⟩
        · intro x hx
          rcases List.mem_cons.mp hx with hx | hx
          · rw [hx]; exact heg
          · exact hextg x hx
        · rw [List.map_cons]
          refine List.nodup_cons.mpr ⟨?_, hnodup⟩
          intro hcontra
          exact hfresh _ hcontra (List.mem_cons_self _ _)
        · intro k hk
          rcases List.mem_cons.mp hk with hk | hk
          · rw [hk]; exact hkey
          · intro hcontra
            exact hfresh k hk (List.mem_cons_of_mem _ hcontra)
        · refine List.chain'_cons'.mpr ⟨?_, hchain⟩
          intro e' he'
          exact (hhead e' he').symm
        · intro x hx
          have hex : e = x := by simpa using hx
          rw [← hex]
          exact hecur

/-- The covering properties of any tour the search returns, as invoked by
`find_tour` (empty accumulator, all keys fresh, fuel = edge count). -/
theorem dfs_covers {g : MultiDiGraph α} {s : α} {tour : List (α × α × Nat)}
    (h : dfsHelper g g.size s [] [] = some tour) :
    tour.length = g.size ∧
    (∀ e ∈ tour, e ∈ g.edges) ∧
    (tour.map fun e => e.2.2).Nodup ∧
    (tour.map fun e => e.2.2).toFinset
      = (g.edges.map fun e => e.2.2).toFinset ∧
    tour.Chain' (fun e e' => e.2.1 = e'.1) ∧
    (∀ e ∈ tour.head?, e.1 = s) := by
  obtain ⟨hlen, ext, hres, hextg, hnodup, _, hchain, hhead⟩ :=
    dfsHelper_spec g.size s [] [] tour h
  have hext : tour = ext := by simpa using hres
  subst hext
  refine ⟨hlen, hextg, hnodup, ?_, hchain, hhead⟩
  have hsub : (tour.map fun e => e.2.2).toFinset
      ⊆ (g.edges.map fun e => e.2.2).toFinset := by
    intro k hk
    rw [List.mem_toFinset] at hk ⊢
    obtain ⟨e, he, hke⟩ := List.mem_map.mp hk
    exact List.mem_map.mpr ⟨e, hextg e he, hke⟩
  have hcard : ((g.edges.map fun e => e.2.2).toFinset).card
      ≤ ((tour.map fun e => e.2.2).toFinset).card := by
    have h1 : ((tour.map fun e => e.2.2).toFinset).card
        = (tour.map fun e => e.2.2).length := by
      rw [List.toFinset_card_of_nodup hnodup]
    have h2 : ((g.edges.map fun e => e.2.2).toFinset).card
        ≤ (g.edges.map fun e => e.2.2).length :=
      List.toFinset_card_le _
    rw [h1, List.length_map]
    rw [List.length_map] at h2
    exact le_trans h2 (le_of_eq hlen.symm)
  exact Finset.eq_of_subset_of_card_le hsub hcard

/-!
## Claims C2 and C6 — the TourBuilder component
-/

theorem except_bind_ok {ε β γ : Type} {x : Except ε β} {f : β → Except ε γ}
    {r : γ} (h : (x >>= f) = .ok r) : ∃ b, x = .ok b ∧ f b = .ok r := by
  cases x with
  | error err => simp [Bind.bind, Except.bind] at h
  | ok b => exact ⟨b, rfl, by simpa [Bind.bind, Except.bind] using h⟩

theorem removeFirstUV_split {u v : α} : ∀ l : List (α × α × Nat),
    (l.any fun e => e.1 = u ∧ e.2.1 = v) = true →
    ∃ pre k post, l = pre ++ (u, v, k) :: post ∧
      removeFirstUV l u v = pre ++ post := by
  intro l
  induction l with
  | nil => intro h; simp at h
  | cons x xs ih =>
    intro h
    by_cases hx : x.1 = u ∧ x.2.1 = v
    · refine ⟨[], x.2.2, xs, ?_, ?_⟩
      · obtain ⟨a, b, k⟩ := x
        obtain ⟨ha, hb⟩ := hx
        simp at ha hb
        rw [ha, hb]
        rfl
      · unfold removeFirstUV
        rw [if_pos hx]
        rfl
    · have h' : (xs.any fun e => e.1 = u ∧ e.2.1 = v) = true := by
        rcases List.any_eq_true.mp h with ⟨y, hy, hpy⟩
        rcases List.mem_cons.mp hy with hy | hy
        · exact absurd (by simpa using hpy) (hy ▸ hx)
        · exact List.any_eq_true.mpr ⟨y, hy, hpy⟩
      obtain ⟨pre, k, post, heq, hrem⟩ := ih h'
      refine ⟨x :: pre, k, post, by rw [List.cons_append, ← heq], ?_⟩
      unfold removeFirstUV
      rw [if_neg hx, hrem]
      rfl

/-- Inversion of a successful `remove_edge('end', 'start')`-style call:
exactly one `(u, v)` edge instance disappears and every other edge (and the
node list) is untouched. -/
theorem removeEdgeUV_ok {g g' : MultiDiGraph α} {u v : α}
    (h : removeEdgeUV g u v = .ok g') :
    g'.nodes = g.nodes ∧
    ∃ pre k post, g.edges = pre ++ (u, v, k) :: post ∧
      g'.edges = pre ++ post := by
  unfold removeEdgeUV at h
  split at h
  · next hhas =>
    injection h with h
    subst h
    obtain ⟨pre, k, post, heq, hrem⟩ := removeFirstUV_split g.edges hhas
    exact ⟨rfl, pre, k, post, heq, hrem⟩
  · cases h

/-- Inversion of a successful `find_tour` run into its pipeline stages. -/
theorem findTourAux_ok {g : MultiDiGraph String} {s e : String}
    {gd gm : MultiDiGraph String} {r : Option (List (String × String × Nat))}
    (h : findTourAux g s e = .ok (gd, gm, r)) :
    ∃ t, shortestPathsOf g = .ok t ∧ duplicatePaths g t = .ok gd ∧
      removeEdgeUV gd "end" "start" = .ok gm ∧
      r = dfsHelper gm gm.size s [] [] := by
  unfold findTourAux at h
  obtain ⟨t, ht, h⟩ := except_bind_ok h
  obtain ⟨gd', hgd, h⟩ := except_bind_ok h
  obtain ⟨gm', hgm, h⟩ := except_bind_ok h
  have h' : (gd', gm', dfsHelper gm' gm'.size s [] []) = (gd, gm, r) := by
    simpa [pure, Except.pure] using h
  injection h' with h1 h'
  injection h' with h2 h3
  subst h1
  subst h2
  subst h3
  exact ⟨t, ht, hgd, hgm, rfl⟩

/-- C2 (counterexample): the balanced but disconnected graph `exG5`
(`start`/`end` two-cycle plus a detached self-loop) is accepted without any
exception, yet `find_tour` ends with `shortest_tour = None` — there is no
resulting tour at all, so the claimed covering properties fail for this
accepted input. -/
theorem C2_counterexample : findTour exG5 "start" "end" = .ok none := by
  decide

/-- C2 (amended): whenever construction succeeds and the search does
produce a tour (`shortest_tour` is not `None`), the tour visits every edge
key of the mutated graph exactly once (its key list is duplicate-free with
key set equal to the graph's), its length equals the mutated graph's edge
count, consecutive edges chain target-to-source, and its first edge leaves
the designated start node.  When the mutated graph admits no such tour the
run instead ends with `shortest_tour = None` (see the counterexample). -/
theorem C2_amended {g : MultiDiGraph String} {s e : String}
    {gd gm : MultiDiGraph String} {tour : List (String × String × Nat)}
    (h : findTourAux g s e = .ok (gd, gm, some tour)) :
    tour.length = gm.size ∧
    (tour.map fun ed => ed.2.2).Nodup ∧
    (tour.map fun ed => ed.2.2).toFinset
      = (gm.edges.map fun ed => ed.2.2).toFinset ∧
    tour.Chain' (fun e1 e2 => e1.2.1 = e2.1) ∧
    (∀ ed ∈ tour.head?, ed.1 = s) := by
  obtain ⟨t, _, _, _, hr⟩ := findTourAux_ok h
  obtain ⟨hlen, _, hnodup, hset, hchain, hhead⟩ := dfs_covers hr.symm
  exact ⟨hlen, hnodup, hset, hchain, hhead⟩

/-- Witness for C2 (amended): the healthy `start`/`end` two-cycle yields
the one-edge tour `[(start, end, 0)]` over the mutated one-edge graph. -/
theorem C2_amended_witness :
    ([(("start" : String), ("end" : String), 0)].map fun ed => ed.2.2).Nodup ∧
    ([(("start" : String), ("end" : String), 0)].map fun ed => ed.2.2).toFinset
      = ((⟨["start", "end"], [("start", "end", 0)]⟩ :
          MultiDiGraph String).edges.map fun ed => ed.2.2).toFinset := by
  have h := @C2_amended exStartEnd "start" "end" exStartEnd
    ⟨["start", "end"], [("start", "end", 0)]⟩ [("start", "end", 0)] rfl
  exact ⟨h.2.1, h.2.2.1⟩

/-- C6 (counterexample): with designated nodes `s`/`t` (and the synthetic
`t → s` edge present), construction fails outright — `find_tour` removes
by the hardcoded literals `'end'`/`'start'` and by endpoints, not by the
caller-supplied synthetic edge's key — instead of removing the `t → s`
edge and producing a tour as the claim describes. -/
theorem C6_counterexample :
    findTour exG6 "s" "t" = .error "The edge end-start not in graph." := by
  decide

/-- C6 (amended): after duplication the builder removes exactly one edge
instance between the nodes *literally named* `'end'` and `'start'`,
selected by endpoints (an arbitrary parallel copy, not the caller's
synthetic edge identified by key); every other edge remains, and whenever a
tour is produced it walks exactly the remaining keys.  If no edge between
nodes literally named `'end'` and `'start'` exists — in particular
whenever the designated nodes are named differently — construction fails
instead. -/
theorem C6_amended {g : MultiDiGraph String} {s e : String}
    {gd gm : MultiDiGraph String} {r : Option (List (String × String × Nat))}
    (h : findTourAux g s e = .ok (gd, gm, r)) :
    (∃ pre k post, gd.edges = pre ++ ("end", "start", k) :: post ∧
      gm.edges = pre ++ post) ∧
    ∀ tour, r = some tour →
      (tour.map fun ed => ed.2.2).toFinset
        = (gm.edges.map fun ed => ed.2.2).toFinset := by
  obtain ⟨t, _, _, hgm, hr⟩ := findTourAux_ok h
  obtain ⟨_, pre, k, post, heq, hrem⟩ := removeEdgeUV_ok hgm
  refine ⟨⟨pre, k, post, heq, hrem⟩, ?_⟩
  intro tour htour
  rw [htour] at hr
  obtain ⟨_, _, _, hset, _, _⟩ := dfs_covers hr.symm
  exact hset

/-- Witness for C6 (amended) on the healthy `start`/`end` two-cycle: the
duplicated graph loses exactly its `end → start` edge. -/
theorem C6_amended_witness :
    ∃ pre k post,
      exStartEnd.edges = pre ++ (("end", "start", k) : String × String × Nat)
        :: post ∧
      (⟨["start", "end"], [("start", "end", 0)]⟩ :
        MultiDiGraph String).edges = pre ++ post := by
  have h := @C6_amended exStartEnd "start" "end" exStartEnd
    ⟨["start", "end"], [("start", "end", 0)]⟩ (some [("start", "end", 0)]) rfl
  exact h.1

/-!
## Claims C3 and C10 — the duplication step
-/

theorem chase_head? (t : Tbl α) (s : α) (fuel : Nat) (e : α) :
    (chase t s fuel e).head? = some e := by
  cases fuel with
  | zero => rfl
  | succ n =>
    rw [chase_succ]
    cases ht : t (s, e) with
    | none => rfl
    | some v =>
      obtain ⟨d, p⟩ := v
      rfl

theorem chase_result {t : Tbl α} {s e : α} {l : List α} {fuel : Nat}
    (h : (if (chase t s fuel e).getLast? ≠ some s
        then (Except.ok none : Except String (Option (List α)))
        else .ok (some (chase t s fuel e).reverse)) = .ok (some l)) :
    l.head? = some s ∧ l.getLast? = some e := by
  split at h
  · injection h with h
    cases h
  · next hcond =>
    injection h with h
    injection h with h
    have hlast : (chase t s fuel e).getLast? = some s := not_not.mp hcond
    constructor
    · rw [← h, List.head?_reverse]
      exact hlast
    · rw [← h, List.getLast?_reverse]
      exact chase_head? t s fuel e

/-- Whatever table it is given, a successful `get_shortest_path` returns a
list running from the requested start to the requested end (the code's
`ret[-1] != start` check enforces the first, construction the second). -/
theorem getShortestPath_ok_some {g : MultiDiGraph α} {t : Tbl α} {s e : α}
    {l : List α} (h : getShortestPath g t s e = .ok (some l)) :
    l.head? = some s ∧ l.getLast? = some e := by
  unfold getShortestPath at h
  split at h
  · cases h
  split at h
  · cases h
  split at h
  · next d p heq => exact chase_result h
  · next heq => exact chase_result h

theorem addNode_edges (g : MultiDiGraph α) (n : α) :
    (g.addNode n).edges = g.edges := by
  unfold MultiDiGraph.addNode
  split <;> rfl

/-- Inserting an edge whose key is fresh appends it. -/
theorem addEdge_fresh {g : MultiDiGraph α} {u v : α} {k : Nat}
    (hk : k ∉ keysOf g) :
    (g.addEdge u v k).edges = g.edges ++ [(u, v, k)] := by
  unfold MultiDiGraph.addEdge
  have he : ((g.addNode u).addNode v).edges = g.edges := by
    rw [addNode_edges, addNode_edges]
  have hmem : (u, v, k) ∉ ((g.addNode u).addNode v).edges := by
    rw [he]
    intro hc
    exact hk (List.mem_map.mpr ⟨(u, v, k), hc, rfl⟩)
  rw [if_neg hmem]
  simpa using he

theorem addEdge_surplus {g : MultiDiGraph α} {u v : α} {k : Nat}
    (hk : k ∉ keysOf g) (n : α) :
    degreeSurplus (g.addEdge u v k) n =
      degreeSurplus g n + (if u = n then 1 else 0)
        - (if v = n then 1 else 0) := by
  unfold degreeSurplus MultiDiGraph.outDegree MultiDiGraph.inDegree
  rw [addEdge_fresh hk, List.filter_append, List.filter_append,
    List.length_append, List.length_append]
  by_cases hu : u = n <;> by_cases hv : v = n <;>
    simp [hu, hv] <;> push_cast <;> omega

theorem addChain_spec :
    ∀ (l : List α) (g : MultiDiGraph α),
      (keysOf g).Perm (List.range g.size) →
      (keysOf (addChain g l)).Perm (List.range (addChain g l).size) ∧
      (∃ added, (addChain g l).edges = g.edges ++ added) ∧
      ∀ n, degreeSurplus (addChain g l) n =
        degreeSurplus g n + (if l.head? = some n then 1 else 0)
          - (if l.getLast? = some n then 1 else 0) := by
  intro l
  induction l with
  | nil =>
    intro g hp
    exact ⟨hp, ⟨[], by simp [addChain]⟩, fun n => by simp [addChain]⟩
  | cons a tail ih =>
    cases tail with
    | nil =>
      intro g hp
      refine ⟨hp, ⟨[], by simp [addChain]⟩, fun n => ?_⟩
      show degreeSurplus g n = _
      by_cases h : a = n <;> simp [h]
    | cons b rest =>
      intro g hp
      have hfresh : g.size ∉ keysOf g := by
        intro hc
        have := hp.mem_iff.mp hc
        rw [List.mem_range] at this
        exact lt_irrefl _ this
      have hedges : (g.addEdge a b g.size).edges
          = g.edges ++ [(a, b, g.size)] := addEdge_fresh hfresh
      have hkeys' : keysOf (g.addEdge a b g.size) = keysOf g ++ [g.size] := by
        unfold keysOf
        rw [hedges]
        simp
      have hsize' : (g.addEdge a b g.size).size = g.size + 1 := by
        show (g.addEdge a b g.size).edges.length = _
        rw [hedges]
        simp [MultiDiGraph.size]
      have hp' : (keysOf (g.addEdge a b g.size)).Perm
          (List.range (g.addEdge a b g.size).size) := by
        rw [hkeys', hsize', List.range_succ]
        exact hp.append_right [g.size]
      have hstep : addChain g (a :: b :: rest)
          = addChain (g.addEdge a b g.size) (b :: rest) := rfl
      obtain ⟨hp'', hadded, hsur⟩ := ih (g.addEdge a b g.size) hp'
      rw [hstep]
      refine ⟨hp'', ?_, ?_⟩
      · obtain ⟨added, ha⟩ := hadded
        exact ⟨(a, b, g.size) :: added, by rw [ha, hedges]; simp⟩
      · intro n
        rw [hsur n, addEdge_surplus hfresh n, List.getLast?_cons_cons]
        by_cases ha : a = n <;> by_cases hb : b = n <;>
          by_cases hlast : (b :: rest).getLast? = some n <;>
          simp [ha, hb, hlast] <;> omega

/-- What a single successful `dupStep` does to the graph. -/
theorem dupStep_ok {g g' : MultiDiGraph α} {t : Tbl α} {sd : α × α}
    (h : dupStep t g sd = .ok g') :
    ∃ path : List α, path.head? = some sd.1 ∧ path.getLast? = some sd.2 ∧
      g' = addChain g path := by
  unfold dupStep at h
  split at h
  · cases h
  · cases h
  · next path heq =>
    injection h with h
    obtain ⟨hh, hl⟩ := getShortestPath_ok_some heq
    exact ⟨path, hh, hl, h.symm⟩

/-- Invariant of the `duplicate_paths` fold: fresh keys stay a permutation
of `0..size-1`, the original edges are preserved as a prefix, and each
node's surplus moves by (its deficit uses as a source) minus (its surplus
uses as a target) over the processed pairs. -/
theorem dupFold_spec {t : Tbl α} :
    ∀ (prs : List (α × α)) (g gd : MultiDiGraph α),
      (keysOf g).Perm (List.range g.size) →
      prs.foldlM (dupStep t) g = .ok gd →
      (keysOf gd).Perm (List.range gd.size) ∧
      (∃ added, gd.edges = g.edges ++ added) ∧
      ∀ n, degreeSurplus gd n = degreeSurplus g n
        + ((prs.filter fun p => p.1 = n).length : Int)
        - ((prs.filter fun p => p.2 = n).length : Int) := by
  intro prs
  induction prs with
  | nil =>
    intro g gd hp h
    have hgd : g = gd := by
      simpa [List.foldlM, pure, Except.pure] using h
    subst hgd
    exact ⟨hp, ⟨[], by simp⟩, fun n => by simp⟩
  | cons p ps ih =>
    intro g gd hp h
    rw [List.foldlM_cons] at h
    obtain ⟨g1, hstep, hrest⟩ := except_bind_ok h
    obtain ⟨path, hh, hl, hg1⟩ := dupStep_ok hstep
    subst hg1
    obtain ⟨hp1, hadd1, hsur1⟩ := addChain_spec path g hp
    obtain ⟨hp2, hadd2, hsur2⟩ := ih _ _ hp1 hrest
    refine ⟨hp2, ?_, ?_⟩
    · obtain ⟨a1, ha1⟩ := hadd1
      obtain ⟨a2, ha2⟩ := hadd2
      exact ⟨a1 ++ a2, by rw [ha2, ha1, List.append_assoc]⟩
    · intro n
      rw [hsur2 n, hsur1 n, hh, hl]
      by_cases h1 : p.1 = n <;> by_cases h2 : p.2 = n <;>
        simp [List.filter_cons, h1, h2] <;> push_cast <;> omega

theorem eppsteinGreedy_eq_zip :
    ∀ l r : List (α × Nat), eppsteinGreedy l r = l.zip r := by
  intro l
  induction l with
  | nil => intro r; cases r <;> rfl
  | cons x xs ih =>
    intro r
    cases r with
    | nil => rfl
    | cons y ys =>
      show (x, y) :: eppsteinGreedy xs ys = (x, y) :: xs.zip ys
      rw [ih]

/-- Appending one matched pair to the plan dict only regroups: the flat
pair list is permuted. -/
theorem planPairs_planAdd (pl : List (α × List α)) (s d : α) :
    (planPairs (planAdd pl s d)).Perm (planPairs pl ++ [(s, d)]) := by
  induction pl with
  | nil => simp [planAdd, planPairs]
  | cons nd rest ih =>
    obtain ⟨n, ds⟩ := nd
    unfold planAdd
    by_cases hns : n = s
    · subst hns
      rw [if_pos rfl]
      have h1 : planPairs ((n, ds ++ [d]) :: rest)
          = (ds.map fun x => (n, x)) ++ ([(n, d)] ++ planPairs rest) := by
        unfold planPairs
        simp [List.flatMap_cons, List.append_assoc]
      have h2 : planPairs ((n, ds) :: rest) ++ [(n, d)]
          = (ds.map fun x => (n, x)) ++ (planPairs rest ++ [(n, d)]) := by
        unfold planPairs
        simp [List.flatMap_cons, List.append_assoc]
      rw [h1, h2]
      exact List.Perm.append_left _ List.perm_append_comm
    · rw [if_neg hns]
      have h1 : planPairs ((n, ds) :: planAdd rest s d)
          = (ds.map fun x => (n, x)) ++ planPairs (planAdd rest s d) := by
        unfold planPairs
        simp [List.flatMap_cons]
      have h2 : planPairs ((n, ds) :: rest) ++ [(s, d)]
          = (ds.map fun x => (n, x)) ++ (planPairs rest ++ [(s, d)]) := by
        unfold planPairs
        simp [List.flatMap_cons, List.append_assoc]
      rw [h1, h2]
      exact List.Perm.append_left _ ih

/-- The flat pair list of the built plan dict is a permutation of the
matched pairs (projected to nodes). -/
theorem planPairs_buildPlan :
    ∀ (prs : List ((α × Nat) × (α × Nat))) (pl : List (α × List α)),
      (planPairs (prs.foldl (fun pl p => planAdd pl p.1.1 p.2.1) pl)).Perm
        (planPairs pl ++ prs.map fun p => (p.1.1, p.2.1)) := by
  intro prs
  induction prs with
  | nil => intro pl; simp
  | cons p ps ih =>
    intro pl
    rw [List.foldl_cons]
    refine (ih (planAdd pl p.1.1 p.2.1)).trans ?_
    have h2 : planPairs pl ++ (p :: ps).map (fun p => (p.1.1, p.2.1))
        = (planPairs pl ++ [(p.1.1, p.2.1)])
          ++ ps.map fun p => (p.1.1, p.2.1) := by
      rw [List.append_assoc]
      rfl
    rw [h2]
    exact (planPairs_planAdd pl p.1.1 p.2.1).append_right _

theorem sum_map_add_nat {f h : α → Nat} :
    ∀ ns : List α,
      (ns.map fun n => f n + h n).sum = (ns.map f).sum + (ns.map h).sum := by
  intro ns
  induction ns with
  | nil => rfl
  | cons m ms ih => simp [ih]; omega

theorem sum_map_sub_int {f h : α → Int} :
    ∀ ns : List α,
      (ns.map fun n => f n - h n).sum = (ns.map f).sum - (ns.map h).sum := by
  intro ns
  induction ns with
  | nil => rfl
  | cons m ms ih => simp [ih]; omega

theorem sum_map_natCast (f : α → Nat) :
    ∀ ns : List α,
      (ns.map fun n => ((f n : Nat) : Int)).sum = ((ns.map f).sum : Int) := by
  intro ns
  induction ns with
  | nil => rfl
  | cons m ms ih => simp [ih]

theorem sum_map_ite_zero {a : α} :
    ∀ ns : List α, a ∉ ns →
      (ns.map fun n => if a = n then (1 : Nat) else 0).sum = 0 := by
  intro ns
  induction ns with
  | nil => intro _; rfl
  | cons m ms ih =>
    intro ha
    have hm : a ≠ m := fun hc => ha (hc ▸ List.mem_cons_self m ms)
    have hms : a ∉ ms := fun hc => ha (List.mem_cons_of_mem m hc)
    simp [hm, ih hms]

theorem sum_map_ite_one {a : α} :
    ∀ ns : List α, ns.Nodup → a ∈ ns →
      (ns.map fun n => if a = n then (1 : Nat) else 0).sum = 1 := by
  intro ns
  induction ns with
  | nil => intro _ h; cases h
  | cons m ms ih =>
    intro hnd ha
    rcases List.mem_cons.mp ha with ha | ha
    · subst ha
      have : a ∉ ms := (List.nodup_cons.mp hnd).1
      simp [sum_map_ite_zero ms this]
    · have hm : a ≠ m := by
        intro hc
        exact (List.nodup_cons.mp hnd).1 (hc ▸ ha)
      simp [hm, ih (List.nodup_cons.mp hnd).2 ha]

/-- Each edge is counted exactly once when bucketing by any projection to a
duplicate-free node list containing all projections. -/
theorem sum_filter_length {β : Type} (f : β → α) :
    ∀ (es : List β) (ns : List α), ns.Nodup → (∀ e ∈ es, f e ∈ ns) →
      (ns.map fun n => (es.filter fun e => f e = n).length).sum
        = es.length := by
  intro es
  induction es with
  | nil =>
    intro ns _ _
    simp
  | cons e es ih =>
    intro ns hnd hin
    have hfe : f e ∈ ns := hin e (List.mem_cons_self e es)
    have ih' := ih ns hnd fun x hx => hin x (List.mem_cons_of_mem e hx)
    have hsplit : (ns.map fun n => ((e :: es).filter fun x => f x = n).length)
        = ns.map fun n => (if f e = n then 1 else 0)
            + (es.filter fun x => f x = n).length := by
      refine List.map_congr_left fun n _ => ?_
      by_cases hfen : f e = n <;> simp [List.filter_cons, hfen] <;> omega
    rw [hsplit, sum_map_add_nat, ih', sum_map_ite_one ns hnd hfe]
    simp [Nat.add_comm]

/-- The degree surpluses of a well-formed graph sum to zero. -/
theorem sum_surplus_zero {g : MultiDiGraph α} (hw : g.WF) :
    (g.nodes.map fun n => degreeSurplus g n).sum = 0 := by
  unfold degreeSurplus
  rw [sum_map_sub_int, sum_map_natCast, sum_map_natCast]
  unfold MultiDiGraph.outDegree MultiDiGraph.inDegree
  rw [sum_filter_length (fun e => e.1) g.edges g.nodes hw.1
      fun e he => (hw.2 e he).1,
    sum_filter_length (fun e => e.2.1) g.edges g.nodes hw.1
      fun e he => (hw.2 e he).2]
  omega

/-- A node outside a well-formed graph has zero surplus. -/
theorem surplus_not_mem {g : MultiDiGraph α} (hw : g.WF) {n : α}
    (hn : n ∉ g.nodes) : degreeSurplus g n = 0 := by
  unfold degreeSurplus MultiDiGraph.outDegree MultiDiGraph.inDegree
  have hout : (g.edges.filter fun e => e.1 = n) = [] := by
    rw [List.filter_eq_nil]
    intro e he hc
    exact hn (by rw [← (by simpa using hc : e.1 = n)]; exact (hw.2 e he).1)
  have hin : (g.edges.filter fun e => e.2.1 = n) = [] := by
    rw [List.filter_eq_nil]
    intro e he hc
    exact hn (by rw [← (by simpa using hc : e.2.1 = n)]; exact (hw.2 e he).2)
  rw [hout, hin]
  rfl

theorem leftSet_length (g : MultiDiGraph α) :
    (leftSet g).length = (g.nodes.map fun n =>
      if degreeSurplus g n < 0 then (degreeSurplus g n).natAbs else 0).sum := by
  unfold leftSet
  rw [List.length_flatMap]
  congr 1
  refine List.map_congr_left fun n _ => ?_
  by_cases h : degreeSurplus g n < 0 <;> simp [h]

theorem rightSet_length (g : MultiDiGraph α) :
    (rightSet g).length = (g.nodes.map fun n =>
      if 0 < degreeSurplus g n then (degreeSurplus g n).natAbs else 0).sum := by
  unfold rightSet
  rw [List.length_flatMap]
  congr 1
  refine List.map_congr_left fun n _ => ?_
  by_cases h : 0 < degreeSurplus g n <;> simp [h]

/-- The deficit and surplus multisets have equal cardinality (the
handshake consequence the spec records as an invariant). -/
theorem left_right_length {g : MultiDiGraph α} (hw : g.WF) :
    (leftSet g).length = (rightSet g).length := by
  have hz := sum_surplus_zero hw
  have key : ((rightSet g).length : Int) - ((leftSet g).length : Int)
      = (g.nodes.map fun n => degreeSurplus g n).sum := by
    rw [leftSet_length, rightSet_length, ← sum_map_natCast, ← sum_map_natCast,
      ← sum_map_sub_int]
    congr 1
    refine List.map_congr_left fun n _ => ?_
    by_cases hpos : 0 < degreeSurplus g n
    · rw [if_pos hpos, if_neg (by omega : ¬degreeSurplus g n < 0)]
      omega
    · by_cases hneg : degreeSurplus g n < 0
      · rw [if_neg hpos, if_pos hneg]
        omega
      · rw [if_neg hpos, if_neg hneg]
        omega
  rw [hz] at key
  omega

theorem pairMap_filter_length {m n : α} :
    ∀ l : List Nat,
      ((l.map fun i => ((m, i) : α × Nat)).filter fun x => x.1 = n).length
        = if m = n then l.length else 0 := by
  intro l
  induction l with
  | nil => by_cases h : m = n <;> simp [h]
  | cons i is ih =>
    by_cases h : m = n <;> simp [List.filter_cons, h] at ih ⊢ <;> omega

theorem leftSet_filter_length {g : MultiDiGraph α} (hw : g.WF) (n : α) :
    ((leftSet g).filter fun x => x.1 = n).length
      = if degreeSurplus g n < 0 then (degreeSurplus g n).natAbs else 0 := by
  have gen : ∀ ns : List α, ns.Nodup →
      (((ns.flatMap fun m =>
          if degreeSurplus g m < 0 then
            (List.range (degreeSurplus g m).natAbs).map fun i => (m, i)
          else []).filter fun x => x.1 = n).length)
        = if n ∈ ns ∧ degreeSurplus g n < 0
            then (degreeSurplus g n).natAbs else 0 := by
    intro ns
    induction ns with
    | nil => intro _; simp
    | cons m ms ih =>
      intro hnd
      rw [List.flatMap_cons, List.filter_append, List.length_append,
        ih (List.nodup_cons.mp hnd).2]
      have hblock : (((if degreeSurplus g m < 0 then
            (List.range (degreeSurplus g m).natAbs).map fun i => (m, i)
          else []).filter fun x => x.1 = n).length)
          = if m = n ∧ degreeSurplus g m < 0
              then (degreeSurplus g m).natAbs else 0 := by
        by_cases hneg : degreeSurplus g m < 0
        · rw [if_pos hneg, pairMap_filter_length]
          by_cases hmn : m = n
          · subst hmn
            simp [hneg]
          · simp [hmn]
        · rw [if_neg hneg]
          by_cases hmn : m = n
          · subst hmn
            simp [hneg]
          · simp [hmn]
      rw [hblock]
      by_cases hmn : m = n
      · subst hmn
        have hnot : m ∉ ms := (List.nodup_cons.mp hnd).1
        by_cases hneg : degreeSurplus g m < 0 <;>
          simp [hneg, hnot, List.mem_cons]
      · by_cases hmem : n ∈ ms <;>
          by_cases hneg : degreeSurplus g n < 0 <;>
          simp [hmn, hmem, hneg, List.mem_cons, Ne.symm hmn]
  rw [(by rfl : leftSet g = g.nodes.flatMap fun m =>
      if degreeSurplus g m < 0 then
        (List.range (degreeSurplus g m).natAbs).map fun i => (m, i)
      else []), gen g.nodes hw.1]
  by_cases hmem : n ∈ g.nodes
  · simp [hmem]
  · have h0 : degreeSurplus g n = 0 := surplus_not_mem hw hmem
    simp [hmem, h0]

theorem rightSet_filter_length {g : MultiDiGraph α} (hw : g.WF) (n : α) :
    ((rightSet g).filter fun x => x.1 = n).length
      = if 0 < degreeSurplus g n then (degreeSurplus g n).natAbs else 0 := by
  have gen : ∀ ns : List α, ns.Nodup →
      (((ns.flatMap fun m =>
          if 0 < degreeSurplus g m then
            (List.range (degreeSurplus g m).natAbs).map fun i => (m, i)
          else []).filter fun x => x.1 = n).length)
        = if n ∈ ns ∧ 0 < degreeSurplus g n
            then (degreeSurplus g n).natAbs else 0 := by
    intro ns
    induction ns with
    | nil => intro _; simp
    | cons m ms ih =>
      intro hnd
      rw [List.flatMap_cons, List.filter_append, List.length_append,
        ih (List.nodup_cons.mp hnd).2]
      have hblock : (((if 0 < degreeSurplus g m then
            (List.range (degreeSurplus g m).natAbs).map fun i => (m, i)
          else []).filter fun x => x.1 = n).length)
          = if m = n ∧ 0 < degreeSurplus g m
              then (degreeSurplus g m).natAbs else 0 := by
        by_cases hpos : 0 < degreeSurplus g m
        · rw [if_pos hpos, pairMap_filter_length]
          by_cases hmn : m = n
          · subst hmn
            simp [hpos]
          · simp [hmn]
        · rw [if_neg hpos]
          by_cases hmn : m = n
          · subst hmn
            simp [hpos]
          · simp [hmn]
      rw [hblock]
      by_cases hmn : m = n
      · subst hmn
        have hnot : m ∉ ms := (List.nodup_cons.mp hnd).1
        by_cases hpos : 0 < degreeSurplus g m <;>
          simp [hpos, hnot, List.mem_cons]
      · by_cases hmem : n ∈ ms <;>
          by_cases hpos : 0 < degreeSurplus g n <;>
          simp [hmn, hmem, hpos, List.mem_cons, Ne.symm hmn]
  rw [(by rfl : rightSet g = g.nodes.flatMap fun m =>
      if 0 < degreeSurplus g m then
        (List.range (degreeSurplus g m).natAbs).map fun i => (m, i)
      else []), gen g.nodes hw.1]
  by_cases hmem : n ∈ g.nodes
  · simp [hmem]
  · have h0 : degreeSurplus g n = 0 := surplus_not_mem hw hmem
    simp [hmem, h0]

theorem zip_proj_filter {n : α} :
    ∀ L R : List (α × Nat), L.length = R.length →
      ((((L.zip R).map fun q => (q.1.1, q.2.1)).filter
          fun p => p.1 = n).length = (L.filter fun x => x.1 = n).length)
      ∧ ((((L.zip R).map fun q => (q.1.1, q.2.1)).filter
          fun p => p.2 = n).length = (R.filter fun x => x.1 = n).length) := by
  intro L
  induction L with
  | nil =>
    intro R h
    cases R with
    | nil => simp
    | cons y ys => cases h
  | cons x xs ih =>
    intro R h
    cases R with
    | nil => cases h
    | cons y ys =>
      have h' : xs.length = ys.length := by simpa using h
      obtain ⟨ih1, ih2⟩ := ih ys h'
      constructor
      · by_cases hx : x.1 = n <;>
          simp [List.filter_cons, hx, ih1] <;> omega
      · by_cases hy : y.1 = n <;>
          simp [List.filter_cons, hy, ih2] <;> omega

/-- C3 (confirmed): whenever `duplicate_paths` completes (on a well-formed
graph whose edge keys are exactly `0 .. size-1`, as the API layer
guarantees and the spec's data model stipulates), every node of the
mutated multigraph has in-degree equal to out-degree: each deficit node
gains one outgoing duplicated path per unit of deficit, each surplus node
one incoming path per unit of surplus, and the interiors of the duplicated
paths telescope. -/
theorem C3_theorem {g gd : MultiDiGraph α} {t : Tbl α} (hw : g.WF)
    (hkeys : (keysOf g).Perm (List.range g.size))
    (h : duplicatePaths g t = .ok gd) :
    ∀ n ∈ gd.nodes, gd.inDegree n = gd.outDegree n := by
  unfold duplicatePaths at h
  obtain ⟨plan, hplan, hfold⟩ := except_bind_ok h
  obtain ⟨_, _, hsur⟩ := dupFold_spec _ _ _ hkeys hfold
  unfold findMatching at hplan
  split at hplan
  · cases hplan
  injection hplan with hplan
  intro n _
  have hsn := hsur n
  rw [← hplan] at hsn
  have hLR := left_right_length hw
  -- identify the matched-pairs multiset
  have hperm2 : (planPairs (buildPlan
      (eppsteinGreedy (leftSet g) (rightSet g)))).Perm
      (((leftSet g).zip (rightSet g)).map fun p => (p.1.1, p.2.1)) := by
    rw [eppsteinGreedy_eq_zip]
    have hb := planPairs_buildPlan ((leftSet g).zip (rightSet g)) []
    simpa [buildPlan, planPairs] using hb
  obtain ⟨z1, z2⟩ := zip_proj_filter (n := n) (leftSet g) (rightSet g) hLR
  have hcnt1 : ((planPairs (buildPlan
      (eppsteinGreedy (leftSet g) (rightSet g)))).filter
        fun p => p.1 = n).length
      = if degreeSurplus g n < 0 then (degreeSurplus g n).natAbs else 0 := by
    rw [← List.countP_eq_length_filter, hperm2.countP_eq,
      List.countP_eq_length_filter, z1, leftSet_filter_length hw n]
  have hcnt2 : ((planPairs (buildPlan
      (eppsteinGreedy (leftSet g) (rightSet g)))).filter
        fun p => p.2 = n).length
      = if 0 < degreeSurplus g n then (degreeSurplus g n).natAbs else 0 := by
    rw [← List.countP_eq_length_filter, hperm2.countP_eq,
      List.countP_eq_length_filter, z2, rightSet_filter_length hw n]
  rw [hcnt1, hcnt2] at hsn
  have hzero : degreeSurplus gd n = 0 := by
    rw [hsn]
    by_cases hneg : degreeSurplus g n < 0
    · rw [if_pos hneg, if_neg (by omega : ¬0 < degreeSurplus g n)]
      omega
    · by_cases hpos : 0 < degreeSurplus g n
      · rw [if_neg hneg, if_pos hpos]
        omega
      · rw [if_neg hneg, if_neg hpos]
        omega
  unfold degreeSurplus at hzero
  omega

/-- Witness for C3 at the imbalanced graph `exDup`: the duplication adds
the edge `(a, b, 3)` and both nodes end up balanced. -/
theorem C3_witness :
    (⟨["a", "b"], [("a", "b", 0), ("b", "a", 1), ("b", "a", 2),
        ("a", "b", 3)]⟩ : MultiDiGraph String).inDegree "a"
      = (⟨["a", "b"], [("a", "b", 0), ("b", "a", 1), ("b", "a", 2),
        ("a", "b", 3)]⟩ : MultiDiGraph String).outDegree "a" ∧
    (⟨["a", "b"], [("a", "b", 0), ("b", "a", 1), ("b", "a", 2),
        ("a", "b", 3)]⟩ : MultiDiGraph String).inDegree "b"
      = (⟨["a", "b"], [("a", "b", 0), ("b", "a", 1), ("b", "a", 2),
        ("a", "b", 3)]⟩ : MultiDiGraph String).outDegree "b" := by
  have h := @C3_theorem String _ exDup
    ⟨["a", "b"], [("a", "b", 0), ("b", "a", 1), ("b", "a", 2), ("a", "b", 3)]⟩
    (floydTables exDup) (by decide) (by decide) rfl
  exact ⟨h "a" (by decide), h "b" (by decide)⟩

/-- C10 (confirmed): when the edge keys at the start of duplication are
exactly `0 .. size-1`, every edge `duplicate_paths` inserts (with key
`g.size()` at insertion time) is fresh, so no existing edge is replaced —
the original edge list survives as a prefix — and all edge keys remain
pairwise distinct (they stay exactly `0 .. newsize-1`). -/
theorem C10_theorem {g gd : MultiDiGraph α} {t : Tbl α}
    (hkeys : (keysOf g).Perm (List.range g.size))
    (h : duplicatePaths g t = .ok gd) :
    (∃ added, gd.edges = g.edges ++ added) ∧
    (keysOf gd).Nodup ∧ (keysOf gd).Perm (List.range gd.size) := by
  unfold duplicatePaths at h
  obtain ⟨plan, _, hfold⟩ := except_bind_ok h
  obtain ⟨hperm, hadded, _⟩ := dupFold_spec _ _ _ hkeys hfold
  exact ⟨hadded, hperm.nodup_iff.mpr (List.nodup_range _), hperm⟩

/-- Witness for C10 at `exDup`: the original three edges stay in place and
the new edge receives the fresh key 3. -/
theorem C10_witness :
    (∃ added, (⟨["a", "b"], [("a", "b", 0), ("b", "a", 1), ("b", "a", 2),
        ("a", "b", 3)]⟩ : MultiDiGraph String).edges
      = exDup.edges ++ added) ∧
    (keysOf (⟨["a", "b"], [("a", "b", 0), ("b", "a", 1), ("b", "a", 2),
        ("a", "b", 3)]⟩ : MultiDiGraph String)).Nodup ∧
    (keysOf (⟨["a", "b"], [("a", "b", 0), ("b", "a", 1), ("b", "a", 2),
        ("a", "b", 3)]⟩ : MultiDiGraph String)).Perm
      (List.range (⟨["a", "b"], [("a", "b", 0), ("b", "a", 1), ("b", "a", 2),
        ("a", "b", 3)]⟩ : MultiDiGraph String).size) :=
  @C10_theorem String _ exDup
    ⟨["a", "b"], [("a", "b", 0), ("b", "a", 1), ("b", "a", 2), ("a", "b", 3)]⟩
    (floydTables exDup) (by decide) rfl

end TCG
